import Mathlib

/-! Shallow embedding of `pkg/chunkenc/memchunk.go` from famarks/loki:
the in-memory compressed log chunk (`MemChunk`), its serialization
(`Bytes`), parsing (`NewByteChunk`), head/block management and the
per-block streaming decode path, together with proofs of the specified
properties.

Bytes are modelled as `Nat` values (the Go code operates on `[]byte`;
where Go truncates to `uint8` / `uint32` / `uint64` the model reduces
modulo the corresponding power of two).  Timestamps (Go `int64`) are
modelled as `Int`.  Go slice expressions that can raise a runtime
range error are modelled explicitly: parsing returns a dedicated
`panicked` result in exactly the situations where the Go code would
abort at run time.

The compression writer/reader pools (`getWriterPool` / `getReaderPool`),
the `Encoding` constants and the `encbuf` / `decbuf` codec helpers are
repository code that is not part of the provided sources; they are
modelled from the spec (sections 4.A and 4.B) as noted on each
definition.  A compressor/decompressor pair is abstracted as a `Codec`
value. -/

namespace LokiChunk

/-! ### Varint and fixed-width primitives (Go `encoding/binary`) -/

/-- Little-endian base-128 unsigned varint encoder (`binary.PutUvarint`),
fuel-indexed so that it reduces structurally; `putUvarint` supplies
enough fuel. -/
def putUvarintAux : Nat → Nat → List Nat
  | 0, n => [n % 128]
  | f + 1, n => if n < 128 then [n] else (n % 128 + 128) :: putUvarintAux f (n / 128)

/-- Unsigned varint encoder (`binary.PutUvarint`). -/
def putUvarint (n : Nat) : List Nat := putUvarintAux n n

/-- Unsigned varint decoder (`binary.ReadUvarint` on a byte stream);
`none` models both an empty stream and a stream that ends in the middle
of a varint. -/
def readUvarint : List Nat → Option (Nat × List Nat)
  | [] => none
  | b :: r =>
    if b < 128 then some (b, r)
    else
      match readUvarint r with
      | none => none
      | some (v, r') => some (b - 128 + 128 * v, r')

/-- Unsigned varint decoder that, like Go's `binary.ReadUvarint` caller in
`moveNext`, keeps the partially accumulated value when the stream ends in
the middle of a varint (the `io.EOF` result is ignored there). -/
def readUvarintPartial : List Nat → Nat × List Nat
  | [] => (0, [])
  | b :: r =>
    if b < 128 then (b, r)
    else
      let p := readUvarintPartial r
      (b - 128 + 128 * p.1, p.2)

/-- Zigzag transform used by `binary.PutVarint`: `uint64(x) << 1`,
complemented for negative `x`. -/
def zigzag (x : Int) : Nat := if 0 ≤ x then (2 * x).toNat else (2 * (-x) - 1).toNat

/-- Inverse of the zigzag transform, as used by `binary.ReadVarint`. -/
def unzigzag (u : Nat) : Int :=
  if u % 2 = 0 then ((u / 2 : Nat) : Int) else -(((u / 2 : Nat) : Int) + 1)

/-- Signed varint encoder (`binary.PutVarint`). -/
def putVarint (x : Int) : List Nat := putUvarint (zigzag x)

/-- Signed varint decoder (`binary.ReadVarint`). -/
def readVarint (l : List Nat) : Option (Int × List Nat) :=
  (readUvarint l).map fun p => (unzigzag p.1, p.2)

/-- Big-endian 32-bit encoder (`binary.BigEndian.PutUint32`). -/
def putBE32 (n : Nat) : List Nat :=
  [n / 2 ^ 24 % 256, n / 2 ^ 16 % 256, n / 2 ^ 8 % 256, n % 256]

/-- Big-endian 64-bit encoder (`binary.BigEndian.PutUint64`). -/
def putBE64 (n : Nat) : List Nat :=
  [n / 2 ^ 56 % 256, n / 2 ^ 48 % 256, n / 2 ^ 40 % 256, n / 2 ^ 32 % 256,
   n / 2 ^ 24 % 256, n / 2 ^ 16 % 256, n / 2 ^ 8 % 256, n % 256]

/-- Big-endian 32-bit decoder (`binary.BigEndian.Uint32`): reads the first
four bytes of the list.  Callers model Go's range panic for shorter
slices separately; the `0` default is never reached on checked paths. -/
def getBE32 : List Nat → Nat
  | a :: b :: c :: d :: _ => ((a * 256 + b) * 256 + c) * 256 + d
  | _ => 0

/-- Big-endian 64-bit decoder (`binary.BigEndian.Uint64`). -/
def getBE64 : List Nat → Nat
  | a :: b :: c :: d :: e :: f :: g :: h :: _ =>
    ((((((a * 256 + b) * 256 + c) * 256 + d) * 256 + e) * 256 + f) * 256 + g) * 256 + h
  | _ => 0

/-! ### CRC32 (Castagnoli), `hash/crc32` with the `castagnoliTable` -/

/-- One bit step of the reflected CRC32-Castagnoli computation
(polynomial `0x82F63B78`). -/
def crcStep (c : Nat) : Nat := if c % 2 = 1 then c / 2 ^^^ 0x82F63B78 else c / 2

/-- Process one byte of input into the running CRC state (Go keeps the
state in a `uint32`, hence the reductions modulo `2 ^ 32`). -/
def crcByte (c b : Nat) : Nat := (crcStep^[8] (c ^^^ b % 256)) % 2 ^ 32

/-- CRC32-Castagnoli of a byte list (`crc32.Checksum(b, castagnoliTable)`). -/
def crc32c (l : List Nat) : Nat := (l.foldl crcByte 0xFFFFFFFF ^^^ 0xFFFFFFFF) % 2 ^ 32

/-- Go slice expression `l[lo:hi]` on an in-range pair. -/
def goSlice (l : List Nat) (lo hi : Nat) : List Nat := (l.take hi).drop lo

/-! ### Data model (`MemChunk`, `block`, `headBlock`, `entry`) -/

/-- Number of blocks a chunk may hold when no target size is configured
(`blocksPerChunk`). -/
def blocksPerChunk : Nat := 10

/-- Maximum decodable line length in bytes (`maxLineLength`). -/
def maxLineLength : Nat := 1024 * 1024 * 1024

/-- Chunk magic number (`magicNumber`). -/
def magicNumber : Nat := 0x12EE56A

/-- A log entry: nanosecond timestamp `t` and line bytes `s`
(source struct `entry`). -/
structure entry where
  t : Int
  s : List Nat
deriving DecidableEq, Repr, Inhabited

/-- The uncompressed append buffer (source struct `headBlock`). -/
structure headBlock where
  entries : List entry
  size : Nat
  mint : Int
  maxt : Int
deriving DecidableEq, Repr, Inhabited

/-- A finished block: compressed payload `b` plus metadata
(source struct `block`). -/
structure block where
  b : List Nat
  numEntries : Nat
  mint : Int
  maxt : Int
  offset : Nat
  uncompressedSize : Nat
deriving DecidableEq, Repr, Inhabited

/-- The chunk (source struct `MemChunk`).  `blockSize` and `targetSize`
are Go `int`s and hence modelled as `Int`. -/
structure MemChunk where
  blockSize : Int
  targetSize : Int
  blocks : List block
  cutBlockSize : Nat
  head : headBlock
  format : Nat
  encoding : Nat
deriving DecidableEq, Repr, Inhabited

/-- Modelled from the spec: a compressor/decompressor pair standing for
the `WriterPool` / `ReaderPool` of one `Encoding` (spec section 4.B; the
pool implementations are repository code outside the provided sources).
The chunk code only ever streams a whole buffer through a writer and
closes it, so a pool is modelled as a function on byte lists. -/
structure Codec where
  comp : List Nat → List Nat
  decomp : List Nat → List Nat

/-- The identity codec: models `EncNone` (spec section 4.B tags
`None=0, GZIP=1, ...`). -/
def codec0 : Codec := ⟨id, id⟩

/-- Errors surfaced by chunk operations (`ErrOutOfOrder`,
`ErrInvalidChecksum`, and the wrapped parse errors of `NewByteChunk`). -/
inductive ChunkErr
  | outOfOrder
  | verifyHeader
  | invalidMagic (m : Nat)
  | invalidVersion (v : Nat)
  | verifyEncoding
  | invalidChecksum
  | blockMeta
deriving DecidableEq, Repr

/-! ### Head block operations -/

/-- `headBlock.isEmpty`. -/
def headBlock.isEmpty (hb : headBlock) : Bool := hb.entries.length = 0

/-- The mutation performed by a successful `headBlock.append`. -/
def headBlock.push (hb : headBlock) (ts : Int) (line : List Nat) : headBlock :=
  { entries := hb.entries ++ [⟨ts, line⟩]
    size := hb.size + line.length
    mint := if hb.mint = 0 ∨ hb.mint > ts then ts else hb.mint
    maxt := ts }

/-- `headBlock.append`: rejects an entry older than `maxt` on a
non-empty head, otherwise pushes it. -/
def headBlock.appendR (hb : headBlock) (ts : Int) (line : List Nat) :
    Option ChunkErr × headBlock :=
  if hb.isEmpty = false ∧ hb.maxt > ts then (some .outOfOrder, hb)
  else (none, hb.push ts line)

/-- Entry wire encoding written by `headBlock.serialise`:
`varint(t)`, `uvarint(len(s))`, then the raw line bytes. -/
def encodeEntry (e : entry) : List Nat :=
  putVarint e.t ++ putUvarint e.s.length ++ e.s

/-- Concatenated encoding of all entries of a head block. -/
def encodeEntries (es : List entry) : List Nat := (es.map encodeEntry).flatten

/-- `headBlock.serialise`: encode all entries and run the result through
the (pooled) compressing writer. -/
def headBlock.serialise (hb : headBlock) (codec : Codec) : List Nat :=
  codec.comp (encodeEntries hb.entries)

/-! ### Chunk operations -/

/-- `NewMemChunk`: fresh chunk, format v2, empty head. -/
def NewMemChunk (enc : Nat) (blockSize targetSize : Int) : MemChunk :=
  { blockSize := blockSize
    targetSize := targetSize
    blocks := []
    cutBlockSize := 0
    head := ⟨[], 0, 0, 0⟩
    format := 2
    encoding := enc }

/-- `MemChunk.cut`: no-op on an empty head; otherwise serialise the head
into a new block, account its compressed length in `cutBlockSize`, and
reset the head (note: the source resets `entries`, `mint` and `size`
but keeps `maxt`). -/
def MemChunk.cut (c : MemChunk) (codec : Codec) : MemChunk :=
  if c.head.isEmpty then c
  else
    let b := c.head.serialise codec
    { c with
      blocks := c.blocks ++
        [{ b := b, numEntries := c.head.entries.length, mint := c.head.mint,
           maxt := c.head.maxt, offset := 0, uncompressedSize := c.head.size }]
      cutBlockSize := c.cutBlockSize + b.length
      head := { entries := [], size := 0, mint := 0, maxt := c.head.maxt } }

/-- Default block used to model the Go indexing `blocks[len(blocks)-1]`
(only ever read under a `blocks` non-emptiness guard). -/
def blk0 : block := ⟨[], 0, 0, 0, 0, 0⟩

/-- `MemChunk.Append`: result error (if any) together with the state of
the chunk after the call. -/
def MemChunk.appendR (c : MemChunk) (codec : Codec) (ts : Int) (line : List Nat) :
    Option ChunkErr × MemChunk :=
  if c.head.isEmpty = true ∧ c.blocks ≠ [] ∧ (c.blocks.getLastD blk0).maxt > ts then
    (some .outOfOrder, c)
  else
    match c.head.appendR ts line with
    | (some e, _) => (some e, c)
    | (none, hb) =>
      let c' : MemChunk := { c with head := hb }
      if (c'.head.size : Int) ≥ c'.blockSize then (none, c'.cut codec)
      else (none, c')

/-- `MemChunk.SpaceFor`. -/
def MemChunk.spaceFor (c : MemChunk) (e : entry) : Bool :=
  if c.targetSize > 0 then
    decide ((c.cutBlockSize : Int) + ((c.head.size : Int) + (e.s.length : Int)) < c.targetSize)
  else
    decide (c.blocks.length < blocksPerChunk)

/-- `MemChunk.Size`: total entry count over blocks and (non-empty) head. -/
def MemChunk.sizeEntries (c : MemChunk) : Nat :=
  c.blocks.foldl (fun a b => a + b.numEntries) 0 +
    (if c.head.isEmpty then 0 else c.head.entries.length)

/-- `MemChunk.UncompressedSize`. -/
def MemChunk.uncompressedSize (c : MemChunk) : Nat :=
  (if c.head.isEmpty then 0 else c.head.size) +
    c.blocks.foldl (fun a b => a + b.uncompressedSize) 0

/-- `MemChunk.CompressedSize`. -/
def MemChunk.compressedSize (c : MemChunk) : Nat :=
  (if c.head.isEmpty then 0 else c.head.size) + c.cutBlockSize

/-- `MemChunk.Utilization`, with the `float64` divisions modelled as
exact rational divisions. -/
def MemChunk.utilizationQ (c : MemChunk) : ℚ :=
  if c.targetSize ≠ 0 then (c.compressedSize : ℚ) / (c.targetSize : ℚ)
  else (c.uncompressedSize : ℚ) / ((blocksPerChunk : ℚ) * (c.blockSize : ℚ))

/-! ### Serialization (`MemChunk.Bytes`) -/

/-- Header written by `Bytes`: BE32 magic, format byte, and (v2 only)
the encoding byte.  `putByte` truncation to `uint8` is the `% 256`. -/
def chunkHeader (c : MemChunk) : List Nat :=
  putBE32 magicNumber ++ [c.format % 256] ++
    (if c.format = 2 then [c.encoding % 256] else [])

/-- The block-payload loop of `Bytes`: starting at output offset `off`,
emit each block's payload followed by BE32 of its CRC, recording the
offset into each block (Go mutates `c.blocks[i].offset`).  Returns the
emitted bytes and the updated block list. -/
def writeBlocksGo : Nat → List block → List Nat × List block
  | _, [] => ([], [])
  | off, b :: rest =>
    let seg := b.b ++ putBE32 (crc32c b.b)
    let p := writeBlocksGo (off + seg.length) rest
    (seg ++ p.1, { b with offset := off } :: p.2)

/-- Per-block metadata record written by `Bytes` (uvarint entry count,
varint mint and maxt, uvarint offset and payload length). -/
def blockMeta (b : block) : List Nat :=
  putUvarint b.numEntries ++ putVarint b.mint ++ putVarint b.maxt ++
    putUvarint b.offset ++ putUvarint b.b.length

/-- Whole metadata section: uvarint block count, then each block's
metadata (the CRC over this section is appended separately). -/
def metaSec (bs : List block) : List Nat :=
  putUvarint bs.length ++ (bs.map blockMeta).flatten

/-- `MemChunk.Bytes`: force a final `cut`, then emit header, block
payloads with per-block CRCs, the metadata section with its CRC, and
the trailing BE64 metadata offset.  Returns the output bytes together
with the chunk state after the call (the head has been cut and block
offsets have been recorded). -/
def MemChunk.bytes (c : MemChunk) (codec : Codec) : List Nat × MemChunk :=
  let c1 := c.cut codec
  let hdr := chunkHeader c1
  let p := writeBlocksGo hdr.length c1.blocks
  let meta := metaSec p.2
  let mOff := hdr.length + p.1.length
  (hdr ++ p.1 ++ meta ++ putBE32 (crc32c meta) ++ putBE64 mOff,
   { c1 with blocks := p.2 })

/-! ### The `decbuf` read decoder

Modelled from the spec (section 4.A): the read decoder surfaces a
sticky error state — once a primitive fails, all subsequent reads
return zero and the final check returns that error. -/

/-- Sticky decoder error (spec section 4.A: short read or malformed
varint). -/
inductive DecErr
  | invalidSize
deriving DecidableEq, Repr

/-- Modelled from the spec: the sticky-error read decoder `decbuf`
(spec section 4.A; the implementation is repository code outside the
provided sources). -/
structure decbuf where
  b : List Nat
  e : Option DecErr
deriving DecidableEq, Repr

/-- The decoder's accumulated error (`decbuf.err`). -/
def decbuf.err (d : decbuf) : Option DecErr := d.e

/-- Read one byte (`decbuf.byte`). -/
def decbuf.byteRead (d : decbuf) : Nat × decbuf :=
  match d.e with
  | some _ => (0, d)
  | none =>
    match d.b with
    | [] => (0, { d with e := some .invalidSize })
    | x :: r => (x, { d with b := r })

/-- Read a big-endian 32-bit value (`decbuf.be32`). -/
def decbuf.be32 (d : decbuf) : Nat × decbuf :=
  match d.e with
  | some _ => (0, d)
  | none =>
    if 4 ≤ d.b.length then (getBE32 d.b, { d with b := d.b.drop 4 })
    else (0, { d with e := some .invalidSize })

/-- Read an unsigned varint (`decbuf.uvarint`). -/
def decbuf.uvarint (d : decbuf) : Nat × decbuf :=
  match d.e with
  | some _ => (0, d)
  | none =>
    match readUvarint d.b with
    | none => (0, { d with e := some .invalidSize })
    | some (v, r) => (v, { d with b := r })

/-- Read a signed varint (`decbuf.varint64`). -/
def decbuf.varint64 (d : decbuf) : Int × decbuf :=
  match d.e with
  | some _ => (0, d)
  | none =>
    match readVarint d.b with
    | none => (0, { d with e := some .invalidSize })
    | some (v, r) => (v, { d with b := r })

/-- CRC32-Castagnoli over the decoder's remaining bytes
(`decbuf.crc32`). -/
def decbuf.crc32 (d : decbuf) : Nat := crc32c d.b

/-! ### Parsing (`NewByteChunk`) -/

/-- Result of `NewByteChunk`: a chunk, an error, or a Go runtime panic
(out-of-range slice index). -/
inductive PRes
  | panicked
  | fail (e : ChunkErr)
  | ok (c : MemChunk)
deriving DecidableEq, Repr

/-- Header verification step of `NewByteChunk`: magic, version, and the
v2 encoding byte.  Returns the `(format, encoding)` pair. -/
def parseHeader (bs : List Nat) : Except ChunkErr (Nat × Nat) :=
  let d : decbuf := ⟨bs, none⟩
  let pm := d.be32
  let pv := pm.2.byteRead
  if pv.2.err.isSome then .error .verifyHeader
  else if pm.1 ≠ magicNumber then .error (.invalidMagic pm.1)
  else if pv.1 = 1 then .ok (1, 1)
  else if pv.1 = 2 then
    let pe := pv.2.byteRead
    if pe.2.err.isSome then .error .verifyEncoding else .ok (2, pe.1)
  else .error (.invalidVersion pv.1)

/-- Decoded per-block metadata record. -/
structure Meta where
  numEntries : Nat
  mint : Int
  maxt : Int
  offset : Nat
  len : Nat
deriving DecidableEq, Repr

/-- Read one block's metadata from the decoder (the five sequential
reads of the `NewByteChunk` loop body). -/
def readMeta (d : decbuf) : Meta × decbuf :=
  let p1 := d.uvarint
  let p2 := p1.2.varint64
  let p3 := p2.2.varint64
  let p4 := p3.2.uvarint
  let p5 := p4.2.uvarint
  (⟨p1.1, p2.1, p3.1, p4.1, p5.1⟩, p5.2)

/-- Result of the block-reading loop. -/
inductive LoopRes
  | panicked
  | fail (e : ChunkErr)
  | done (bs : List block) (cbs : Nat)
deriving DecidableEq, Repr

/-- The block-reading loop of `NewByteChunk`.  For each of the `n`
metadata records: slice the payload out of the full input (a Go range
panic if it reaches past the end), read the BE32 checksum that follows
it (a panic when fewer than 4 bytes remain), skip the block on a CRC
mismatch (with a log event), and otherwise keep it — accumulating
`cutBlockSize` and only then checking the decoder's sticky error. -/
def parseBlocksLoop (full : List Nat) : Nat → decbuf → List block → Nat → LoopRes
  | 0, _, acc, cbs => .done acc cbs
  | n + 1, d, acc, cbs =>
    let pm := readMeta d
    let m := pm.1
    if full.length < m.offset + m.len then .panicked
    else
      let blkb := goSlice full m.offset (m.offset + m.len)
      if full.length - (m.offset + m.len) < 4 then .panicked
      else
        let expCRC := getBE32 (full.drop (m.offset + m.len))
        if expCRC ≠ crc32c blkb then parseBlocksLoop full n pm.2 acc cbs
        else
          let acc' := acc ++
            [{ b := blkb, numEntries := m.numEntries, mint := m.mint,
               maxt := m.maxt, offset := m.offset, uncompressedSize := 0 }]
          if pm.2.err.isSome then .fail .blockMeta
          else parseBlocksLoop full n pm.2 acc' (cbs + blkb.length)

/-- The BE64 metadata offset stored in the last 8 bytes of the input. -/
def metasOffOf (bs : List Nat) : Nat := getBE64 (bs.drop (bs.length - 8))

/-- The metadata section `bs[metasOffset : len-12]`. -/
def metaBytesOf (bs : List Nat) : List Nat :=
  goSlice bs (metasOffOf bs) (bs.length - 12)

/-- The stored metadata CRC, the BE32 at `len-12`. -/
def storedMetaCRC (bs : List Nat) : Nat := getBE32 (bs.drop (bs.length - 12))

/-- `NewByteChunk`: parse a serialized chunk.  Mirrors the source
line-for-line, including the unguarded slice expressions that panic on
short inputs (`b[len(b)-8:]`, `b[metasOffset : len(b)-12]`, and the
per-block slices inside the loop). -/
def NewByteChunk (bs : List Nat) (blockSize targetSize : Int) : PRes :=
  match parseHeader bs with
  | .error e => .fail e
  | .ok fe =>
    if bs.length < 8 then .panicked
    else
      let mOff := metasOffOf bs
      if bs.length < 12 ∨ bs.length - 12 < mOff then .panicked
      else
        let d : decbuf := ⟨metaBytesOf bs, none⟩
        if storedMetaCRC bs ≠ d.crc32 then .fail .invalidChecksum
        else
          let pn := d.uvarint
          match parseBlocksLoop bs pn.1 pn.2 [] 0 with
          | .panicked => .panicked
          | .fail e => .fail e
          | .done blks cbs =>
            .ok { blockSize := blockSize, targetSize := targetSize,
                  blocks := blks, cutBlockSize := cbs,
                  head := ⟨[], 0, 0, 0⟩, format := fe.1, encoding := fe.2 }

/-- Raw (decbuf-free) decoding of one metadata record; used to state
which metadata a byte string denotes. -/
def readMetaRaw (l : List Nat) : Option (Meta × List Nat) :=
  (readUvarint l).bind fun p1 =>
  (readVarint p1.2).bind fun p2 =>
  (readVarint p2.2).bind fun p3 =>
  (readUvarint p3.2).bind fun p4 =>
  (readUvarint p4.2).map fun p5 =>
  (⟨p1.1, p2.1, p3.1, p4.1, p5.1⟩, p5.2)

/-- Read `n` metadata records in sequence. -/
def readNMetas : Nat → List Nat → Option (List Meta × List Nat)
  | 0, l => some ([], l)
  | n + 1, l =>
    (readMetaRaw l).bind fun p =>
    (readNMetas n p.2).map fun q => (p.1 :: q.1, q.2)

/-- Decode the whole metadata section: block count then that many
records (trailing bytes are not rejected, as in the source). -/
def decodeMetas (l : List Nat) : Option (List Meta) :=
  (readUvarint l).bind fun p => (readNMetas p.1 p.2).map Prod.fst

/-! ### Streaming decode (`bufferedIterator`) -/

/-- Iterator-side decode errors (`bufferedIterator.err`). -/
inductive IterErr
  | lineTooLong (n : Nat)
deriving DecidableEq, Repr

/-- Result of `bufferedIterator.moveNext` on the decompressed stream:
graceful end, a sticky error, an entry, or divergence (`hang` models
the read loop spinning on a stream that ends before `lineSize` bytes
are available — `bufio.Reader.Read` keeps returning `(0, io.EOF)`). -/
inductive MoveRes
  | eof
  | errR (e : IterErr)
  | hang
  | entry (ts : Int) (line : List Nat) (rest : List Nat)
deriving DecidableEq, Repr

/-- `bufferedIterator.moveNext`: read a varint timestamp (end of stream,
even inside the varint, ends iteration gracefully because `io.EOF` is
not recorded), read the line length (a truncated uvarint keeps the
partial value, again because `io.EOF` is ignored), reject lengths of
`maxLineLength` or more, then read exactly that many line bytes. -/
def moveNextM (data : List Nat) : MoveRes :=
  match readVarint data with
  | none => .eof
  | some (ts, r1) =>
    let pl := readUvarintPartial r1
    if pl.1 ≥ maxLineLength then .errR (.lineTooLong pl.1)
    else if pl.2.length < pl.1 then .hang
    else .entry ts (pl.2.take pl.1) (pl.2.drop pl.1)

/-- Fuel-indexed repeated `moveNext`, collecting the decoded entries of
one block's decompressed payload. -/
def decodeEntriesFuel : Nat → List Nat → Option (List entry)
  | 0, _ => none
  | f + 1, l =>
    match moveNextM l with
    | .eof => some []
    | .errR _ => none
    | .hang => none
    | .entry ts line rest => (decodeEntriesFuel f rest).map (⟨ts, line⟩ :: ·)

/-- Entries decoded from one decompressed block payload (the fuel
`l.length + 1` is enough: each step consumes at least one byte). -/
def decodeEntries (l : List Nat) : Option (List entry) :=
  decodeEntriesFuel (l.length + 1) l

/-- Entries yielded by iterating one block (`encBlock.Iterator` with a
pipeline that keeps every line unchanged): decompress via the chunk's
encoding pool, then run the streaming decode. -/
def blockDecodedEntries (codec : Codec) (blk : block) : Option (List entry) :=
  decodeEntries (codec.decomp blk.b)

/-- Entries yielded by iterating a whole chunk forward over the full
time range with a pipeline that keeps every line unchanged: blocks in
order, then the head's materialized entries (`MemChunk.Iterator`
composes the per-block iterators with the head iterator via
`NewNonOverlappingIterator`). -/
def MemChunk.decodedEntries (c : MemChunk) (codec : Codec) : Option (List entry) :=
  (c.blocks.mapM (blockDecodedEntries codec)).map
    fun ls => ls.flatten ++ c.head.entries

/-! ### Iterator state machine (`bufferedIterator.Next` / `Close`) -/

/-- Mutable state of a `bufferedIterator`: the original compressed
bytes, the decompressed stream once the reader is initialized (`none`
models the nil `reader` / `bufReader` fields), the sticky error, the
closed flag and the current entry. -/
structure ItState where
  origBytes : List Nat
  rdr : Option (List Nat)
  itErr : Option IterErr
  closed : Bool
  currTs : Int
  currLine : List Nat
deriving DecidableEq, Repr, Inhabited

/-- Result of one `Next` call: a boolean with the post-call state, a
runtime panic (method call on the nil `bufReader` after `close`), or
divergence in the read loop. -/
inductive NextRes
  | panicked
  | hang
  | res (ok : Bool) (st : ItState)
deriving DecidableEq, Repr

/-- `bufferedIterator.close`: return the leases and nil the reader
fields (the sticky error is kept). -/
def ItState.closeSt (st : ItState) : ItState :=
  if st.closed then st
  else { st with closed := true, rdr := none, origBytes := [] }

/-- `bufferedIterator.Close`: idempotent close, returning the sticky
error. -/
def ItState.closeR (st : ItState) : Option IterErr × ItState :=
  (st.itErr, st.closeSt)

/-- `bufferedIterator.Error`. -/
def ItState.errorR (st : ItState) : Option IterErr := st.itErr

/-- A fresh iterator over one block's compressed bytes
(`newBufferedIterator`: the reader is initialized lazily). -/
def newIter (b : List Nat) : ItState :=
  { origBytes := b, rdr := none, itErr := none, closed := false,
    currTs := 0, currLine := [] }

/-- `bufferedIterator.Next`: initialize the reader on first use (only
while not closed), then `moveNext`; on end or error, `Close` and return
`false`.  After a close the reader fields are nil, so a further call
dereferences the nil `bufReader` — modelled as `panicked`. -/
def nextR (st : ItState) (codec : Codec) : NextRes :=
  let st1 := if st.closed = false ∧ st.rdr = none then
    { st with rdr := some (codec.decomp st.origBytes) } else st
  match st1.rdr with
  | none => .panicked
  | some data =>
    match moveNextM data with
    | .eof => .res false st1.closeSt
    | .errR e => .res false ({ st1 with itErr := some e }).closeSt
    | .hang => .hang
    | .entry ts line rest =>
      .res true { st1 with rdr := some rest, currTs := ts, currLine := line }

/-- The state carried by a `res` outcome (used to follow an iterator
through successive `Next` calls). -/
def NextRes.stateOf : NextRes → ItState
  | .res _ st => st
  | _ => default

/-! ### Operation sequences (for the reachable-state invariants) -/

/-- One chunk-mutating operation: a call to `Append` or to `cut`. -/
inductive Op
  | app (ts : Int) (line : List Nat)
  | docut
deriving DecidableEq, Repr

/-- Apply one operation to a chunk (an `Append` that errors leaves the
chunk unchanged, as the returned state of `appendR` records). -/
def applyOp (codec : Codec) (c : MemChunk) : Op → MemChunk
  | .app ts line => (c.appendR codec ts line).2
  | .docut => c.cut codec

/-- Run a sequence of operations from a starting chunk. -/
def runOps (codec : Codec) (c : MemChunk) (ops : List Op) : MemChunk :=
  ops.foldl (applyOp codec) c

/-- Append a whole entry list through `MemChunk.Append`, keeping the
state left by each call. -/
def appendAll (codec : Codec) (c : MemChunk) : List entry → MemChunk
  | [] => c
  | e :: es => appendAll codec (c.appendR codec e.t e.s).2 es

/-- Whether every `Append` of the entry list returns without error. -/
def appendAllOk (codec : Codec) (c : MemChunk) : List entry → Bool
  | [] => true
  | e :: es =>
    match c.appendR codec e.t e.s with
    | (none, c') => appendAllOk codec c' es
    | (some _, _) => false

/-- The chunk state right after the in-head append inside `Append`
succeeded, before the block-size check. -/
def MemChunk.headAppended (c : MemChunk) (ts : Int) (line : List Nat) : MemChunk :=
  { c with head := c.head.push ts line }

/-! ### Invariants used by the proofs -/

/-- Temporal ordering invariant of a chunk: blocks are chained
(`maxt ≤` next `mint`), each block has `mint ≤ maxt`, an empty head has
the `0` `mint` sentinel, and a non-empty head starts no earlier than
the last block ends. -/
def chunkOrdered (c : MemChunk) : Prop :=
  List.Chain' (fun a b => a.maxt ≤ b.mint) c.blocks
  ∧ (∀ b ∈ c.blocks, b.mint ≤ b.maxt)
  ∧ (c.head.isEmpty = true → c.head.mint = 0)
  ∧ (c.head.isEmpty = false →
      c.head.mint ≤ c.head.maxt ∧ ∀ b ∈ c.blocks.getLast?, b.maxt ≤ c.head.mint)

/-- Build invariant: every cut block's payload is the compression of
the wire encoding of some entry run, and those runs followed by the
head's entries reproduce the appended sequence. -/
def Shapes (codec : Codec) (c : MemChunk) (bss : List (List entry)) (done : List entry) : Prop :=
  c.blocks.map block.b = bss.map (fun l => codec.comp (encodeEntries l))
  ∧ bss.flatten ++ c.head.entries = done

/-- A chunk is ready to accept any entry with timestamp at least `t0`
without an `OutOfOrder` error. -/
def Ready (c : MemChunk) (t0 : Int) : Prop :=
  (c.head.isEmpty = false → c.head.maxt ≤ t0)
  ∧ (c.head.isEmpty = true → c.blocks = [] ∨ (c.blocks.getLastD blk0).maxt ≤ t0)

/-! ### Parse-result views used to state the checksum claim -/

/-- Whether the stored per-block BE32 checksum matches the CRC of the
block's payload slice. -/
def blockCRCok (full : List Nat) (m : Meta) : Bool :=
  getBE32 (full.drop (m.offset + m.len)) =
    crc32c (goSlice full m.offset (m.offset + m.len))

/-- The block a metadata record denotes within the full input. -/
def blockOfMeta (full : List Nat) (m : Meta) : block :=
  { b := goSlice full m.offset (m.offset + m.len), numEntries := m.numEntries,
    mint := m.mint, maxt := m.maxt, offset := m.offset, uncompressedSize := 0 }

/-- The blocks kept by the parse loop: exactly the metadata records
whose payload checksum verifies. -/
def blocksOfMetas (full : List Nat) (ms : List Meta) : List block :=
  (ms.filter (blockCRCok full)).map (blockOfMeta full)

/-! ### Concrete inputs used by the witnesses and counterexamples -/

/-- Two in-order entries, lines `"a"` and `"b"`. -/
def esW : List entry := [⟨1, [97]⟩, ⟨2, [98]⟩]

/-- A two-block chunk: `blockSize = 1` forces a cut on every append. -/
def chunkW : MemChunk := appendAll codec0 (NewMemChunk 0 1 0) esW

/-- Its serialization. -/
def bytesW : List Nat := (chunkW.bytes codec0).1

/-- The serialization with one byte of the metadata section corrupted. -/
def badMetaW : List Nat :=
  bytesW.set (metasOffOf bytesW) ((bytesW.getD (metasOffOf bytesW) 0 + 1) % 256)

/-- The serialization with one byte of the first block's payload
corrupted. -/
def badBlockW : List Nat := bytesW.set 6 ((bytesW.getD 6 0 + 1) % 256)

/-- A chunk with a negative target size and one cut block. -/
def cNeg : MemChunk := appendAll codec0 (NewMemChunk 0 1 (-1)) [⟨1, [97]⟩]

/-- A chunk with a negative target size and a non-empty head. -/
def cA : MemChunk := appendAll codec0 (NewMemChunk 0 100 (-1)) [⟨1, [97]⟩]

/-- A fresh chunk with no target size. -/
def cB : MemChunk := NewMemChunk 0 1 0

/-- A chunk with a non-empty head (one entry at `t = 10`). -/
def cC2 : MemChunk := appendAll codec0 (NewMemChunk 0 100 0) [⟨10, [120]⟩]

/-- A block payload whose second entry declares a line length of
`2 ^ 30` (varint `0`, then uvarint `2 ^ 30`): decoding it trips the
`maxLineLength` check. -/
def longLineBytes : List Nat := [0, 128, 128, 128, 128, 4]

/-- A fresh iterator over that payload. -/
def itW0 : ItState := newIter longLineBytes

/-- An already-initialized iterator state over that payload. -/
def itW : ItState :=
  { origBytes := [], rdr := some longLineBytes, itErr := none, closed := false,
    currTs := 0, currLine := [] }

/-- Operations producing two cut blocks (`blockSize = 1`). -/
def opsW : List Op := [.app 1 [97], .app 2 [98]]

/-- Operations producing one cut block and a non-empty head (the second
entry has an empty line, so its append does not reach `blockSize`). -/
def opsW2 : List Op := [.app 1 [97], .app 2 []]

/-! ### Claim C10: `Bytes` is deterministic after the first call -/

theorem cut_of_empty (codec : Codec) (c : MemChunk) (h : c.head.isEmpty = true) :
    c.cut codec = c := by
  unfold MemChunk.cut
  rw [if_pos h]

theorem cut_head_isEmpty (codec : Codec) (c : MemChunk) :
    (c.cut codec).head.isEmpty = true := by
  unfold MemChunk.cut
  by_cases h : c.head.isEmpty = true
  · rw [if_pos h]; exact h
  · rw [if_neg h]; rfl

theorem writeBlocksGo_idem (off : Nat) (bs : List block) :
    writeBlocksGo off (writeBlocksGo off bs).2 = writeBlocksGo off bs := by
  induction bs generalizing off with
  | nil => rfl
  | cons b rest ih =>
    simp only [writeBlocksGo]
    rw [ih]

theorem bytes_fst_eq (codec : Codec) (c : MemChunk) :
    (c.bytes codec).1 =
      chunkHeader (c.cut codec) ++
        (writeBlocksGo (chunkHeader (c.cut codec)).length (c.cut codec).blocks).1 ++
        metaSec (writeBlocksGo (chunkHeader (c.cut codec)).length (c.cut codec).blocks).2 ++
        putBE32 (crc32c (metaSec
          (writeBlocksGo (chunkHeader (c.cut codec)).length (c.cut codec).blocks).2)) ++
        putBE64 ((chunkHeader (c.cut codec)).length +
          (writeBlocksGo (chunkHeader (c.cut codec)).length (c.cut codec).blocks).1.length) := rfl

theorem bytes_snd_eq (codec : Codec) (c : MemChunk) :
    (c.bytes codec).2 =
      { c.cut codec with
        blocks := (writeBlocksGo (chunkHeader (c.cut codec)).length (c.cut codec).blocks).2 } := rfl

theorem chunkHeader_update (c : MemChunk) (bs : List block) :
    chunkHeader { c with blocks := bs } = chunkHeader c := rfl

theorem blocks_update (c : MemChunk) (bs : List block) :
    ({ c with blocks := bs } : MemChunk).blocks = bs := rfl

/-- Claim C10: calling `Bytes()` twice in succession returns identical
byte slices — the first call's cut empties the head, the second call's
cut is a no-op, and re-serializing the already-cut blocks and metadata
is deterministic. -/
theorem bytes_idempotent (codec : Codec) (c : MemChunk) :
    (((c.bytes codec).2).bytes codec).1 = (c.bytes codec).1 := by
  have hempty : ((c.bytes codec).2).head.isEmpty = true := cut_head_isEmpty codec c
  rw [bytes_fst_eq codec ((c.bytes codec).2), bytes_fst_eq codec c,
      cut_of_empty codec ((c.bytes codec).2) hempty, bytes_snd_eq codec c,
      chunkHeader_update, blocks_update, writeBlocksGo_idem]

/-! ### Round-trip lemmas for the primitives -/

theorem readUvarint_putUvarintAux (f : Nat) :
    ∀ n r, n ≤ f → readUvarint (putUvarintAux f n ++ r) = some (n, r) := by
  induction f with
  | zero =>
    intro n r hn
    interval_cases n
    simp [putUvarintAux, readUvarint]
  | succ f ih =>
    intro n r hn
    by_cases h : n < 128
    · simp [putUvarintAux, readUvarint, h]
    · have hdiv : n / 128 ≤ f := by
        have := Nat.div_lt_self (by omega : 0 < n) (by omega : 1 < 128)
        omega
      have hb : ¬ n % 128 + 128 < 128 := by omega
      simp only [putUvarintAux, if_neg h, List.cons_append, readUvarint, if_neg hb,
        ih (n / 128) r hdiv]
      simp only [Prod.mk.injEq, Option.some.injEq, eq_self_iff_true, and_true]
      omega

theorem readUvarint_putUvarint (n : Nat) (r : List Nat) :
    readUvarint (putUvarint n ++ r) = some (n, r) :=
  readUvarint_putUvarintAux n n r le_rfl

theorem readUvarintPartial_putUvarintAux (f : Nat) :
    ∀ n r, n ≤ f → readUvarintPartial (putUvarintAux f n ++ r) = (n, r) := by
  induction f with
  | zero =>
    intro n r hn
    interval_cases n
    simp [putUvarintAux, readUvarintPartial]
  | succ f ih =>
    intro n r hn
    by_cases h : n < 128
    · simp [putUvarintAux, readUvarintPartial, h]
    · have hdiv : n / 128 ≤ f := by
        have := Nat.div_lt_self (by omega : 0 < n) (by omega : 1 < 128)
        omega
      have hb : ¬ n % 128 + 128 < 128 := by omega
      simp only [putUvarintAux, if_neg h, List.cons_append, readUvarintPartial, if_neg hb,
        ih (n / 128) r hdiv]
      simp only [Prod.mk.injEq, Option.some.injEq, eq_self_iff_true, and_true]
      omega

theorem readUvarintPartial_putUvarint (n : Nat) (r : List Nat) :
    readUvarintPartial (putUvarint n ++ r) = (n, r) :=
  readUvarintPartial_putUvarintAux n n r le_rfl

theorem unzigzag_zigzag (x : Int) : unzigzag (zigzag x) = x := by
  unfold zigzag unzigzag
  by_cases h : 0 ≤ x
  · rw [if_pos h]
    have h2 : ((2 * x).toNat) = 2 * x.toNat := by omega
    have : (2 * x.toNat) % 2 = 0 := by omega
    rw [h2, if_pos this]
    omega
  · rw [if_neg h]
    have h2 : ((2 * (-x) - 1).toNat) = 2 * (-x).toNat - 1 := by omega
    have hpos : 1 ≤ (-x).toNat := by omega
    have : (2 * (-x).toNat - 1) % 2 = 1 := by omega
    rw [h2, if_neg (by omega)]
    omega

theorem readVarint_putVarint (x : Int) (r : List Nat) :
    readVarint (putVarint x ++ r) = some (x, r) := by
  simp [readVarint, putVarint, readUvarint_putUvarint, unzigzag_zigzag]

theorem putUvarintAux_ne_nil (f n : Nat) : putUvarintAux f n ≠ [] := by
  cases f with
  | zero => simp [putUvarintAux]
  | succ f =>
    unfold putUvarintAux
    by_cases h : n < 128 <;> simp [h]

theorem putUvarint_length_pos (n : Nat) : 0 < (putUvarint n).length :=
  List.length_pos.2 (putUvarintAux_ne_nil n n)

theorem getBE32_putBE32 (n : Nat) (r : List Nat) :
    getBE32 (putBE32 n ++ r) = n % 2 ^ 32 := by
  simp only [putBE32, List.cons_append, List.nil_append, getBE32]
  omega

theorem getBE64_putBE64 (n : Nat) (r : List Nat) :
    getBE64 (putBE64 n ++ r) = n % 2 ^ 64 := by
  simp only [putBE64, List.cons_append, List.nil_append, getBE64]
  omega

theorem putBE32_length (n : Nat) : (putBE32 n).length = 4 := rfl

theorem putBE64_length (n : Nat) : (putBE64 n).length = 8 := rfl

theorem crc32c_lt (l : List Nat) : crc32c l < 2 ^ 32 :=
  Nat.mod_lt _ (by norm_num)

theorem goSlice_append (a b c : List Nat) :
    goSlice (a ++ b ++ c) a.length (a.length + b.length) = b := by
  unfold goSlice
  rw [List.append_assoc, List.take_append_eq_append_take]
  simp [List.take_of_length_le (le_of_eq rfl)]

/-! ### Reading back what the encoder wrote (`decbuf` lemmas) -/

theorem decbuf_uvarint_of (l : List Nat) (v : Nat) (r : List Nat)
    (h : readUvarint l = some (v, r)) :
    decbuf.uvarint ⟨l, none⟩ = (v, ⟨r, none⟩) := by
  simp [decbuf.uvarint, h]

theorem decbuf_varint64_of (l : List Nat) (v : Int) (r : List Nat)
    (h : readVarint l = some (v, r)) :
    decbuf.varint64 ⟨l, none⟩ = (v, ⟨r, none⟩) := by
  simp [decbuf.varint64, h]

theorem decbuf_uvarint_put (n : Nat) (r : List Nat) :
    decbuf.uvarint ⟨putUvarint n ++ r, none⟩ = (n, ⟨r, none⟩) :=
  decbuf_uvarint_of _ n r (readUvarint_putUvarint n r)

theorem decbuf_varint64_put (x : Int) (r : List Nat) :
    decbuf.varint64 ⟨putVarint x ++ r, none⟩ = (x, ⟨r, none⟩) :=
  decbuf_varint64_of _ x r (readVarint_putVarint x r)

theorem readMeta_encoded (b : block) (r : List Nat) :
    readMeta ⟨blockMeta b ++ r, none⟩ =
      (⟨b.numEntries, b.mint, b.maxt, b.offset, b.b.length⟩, ⟨r, none⟩) := by
  unfold readMeta blockMeta
  simp only [List.append_assoc, decbuf_uvarint_put, decbuf_varint64_put]

theorem readMetaRaw_readMeta (l : List Nat) (m : Meta) (r : List Nat)
    (h : readMetaRaw l = some (m, r)) : readMeta ⟨l, none⟩ = (m, ⟨r, none⟩) := by
  unfold readMetaRaw at h
  cases h1 : readUvarint l with
  | none => rw [h1] at h; cases h
  | some p1 =>
  obtain ⟨ne, l1⟩ := p1
  rw [h1, Option.some_bind] at h
  cases h2 : readVarint l1 with
  | none => rw [h2] at h; cases h
  | some p2 =>
  obtain ⟨mn, l2⟩ := p2
  rw [h2, Option.some_bind] at h
  cases h3 : readVarint l2 with
  | none => rw [h3] at h; cases h
  | some p3 =>
  obtain ⟨mx, l3⟩ := p3
  rw [h3, Option.some_bind] at h
  cases h4 : readUvarint l3 with
  | none => rw [h4] at h; cases h
  | some p4 =>
  obtain ⟨off, l4⟩ := p4
  rw [h4, Option.some_bind] at h
  cases h5 : readUvarint l4 with
  | none => rw [h5] at h; cases h
  | some p5 =>
  obtain ⟨ln, l5⟩ := p5
  rw [h5, Option.map_some'] at h
  simp only [Option.some.injEq, Prod.mk.injEq] at h
  obtain ⟨hm, hr⟩ := h
  subst hm hr
  unfold readMeta
  simp only [decbuf_uvarint_of l ne l1 h1, decbuf_varint64_of l1 mn l2 h2,
      decbuf_varint64_of l2 mx l3 h3, decbuf_uvarint_of l3 off l4 h4,
      decbuf_uvarint_of l4 ln l5 h5]

/-! ### The parse loop keeps exactly the CRC-valid blocks -/

theorem parseBlocksLoop_decoded (full : List Nat) :
    ∀ (n : Nat) (l : List Nat) (ms : List Meta) (r : List Nat) (acc : List block) (cbs : Nat),
      readNMetas n l = some (ms, r) →
      (∀ m ∈ ms, m.offset + m.len + 4 ≤ full.length) →
      ∃ cbs', parseBlocksLoop full n ⟨l, none⟩ acc cbs =
        .done (acc ++ blocksOfMetas full ms) cbs' := by
  intro n
  induction n with
  | zero =>
    intro l ms r acc cbs hread _
    unfold readNMetas at hread
    simp only [Option.some.injEq, Prod.mk.injEq] at hread
    obtain ⟨hms, -⟩ := hread
    subst hms
    exact ⟨cbs, by simp [parseBlocksLoop, blocksOfMetas]⟩
  | succ n ih =>
    intro l ms r acc cbs hread hbound
    unfold readNMetas at hread
    cases h1 : readMetaRaw l with
    | none => rw [h1] at hread; cases hread
    | some p1 =>
    obtain ⟨m, r1⟩ := p1
    rw [h1, Option.some_bind] at hread
    cases h2 : readNMetas n r1 with
    | none => rw [h2] at hread; cases hread
    | some p2 =>
    obtain ⟨ms', r2⟩ := p2
    rw [h2, Option.map_some'] at hread
    simp only [Option.some.injEq, Prod.mk.injEq] at hread
    obtain ⟨hms, hr⟩ := hread
    subst hms hr
    have hm := hbound m (List.mem_cons_self m ms')
    have hbound' : ∀ m' ∈ ms', m'.offset + m'.len + 4 ≤ full.length :=
      fun m' hm' => hbound m' (List.mem_cons_of_mem m hm')
    unfold parseBlocksLoop
    rw [readMetaRaw_readMeta l m r1 h1]
    dsimp only
    rw [if_neg (by omega), if_neg (by omega)]
    by_cases hcrc : getBE32 (full.drop (m.offset + m.len)) ≠
        crc32c (goSlice full m.offset (m.offset + m.len))
    · rw [if_pos hcrc]
      obtain ⟨cbs', hrec⟩ := ih r1 ms' r2 acc cbs h2 hbound'
      refine ⟨cbs', ?_⟩
      rw [hrec]
      have hfil : blockCRCok full m = false := by
        simp only [blockCRCok, decide_eq_false_iff_not]
        exact hcrc
      simp [blocksOfMetas, List.filter_cons, hfil]
    · rw [if_neg hcrc]
      have heq := not_not.1 hcrc
      simp only [decbuf.err, Option.isSome_none, Bool.false_eq_true, if_false]
      obtain ⟨cbs', hrec⟩ := ih r1 ms' r2
        (acc ++ [{ b := goSlice full m.offset (m.offset + m.len), numEntries := m.numEntries,
                   mint := m.mint, maxt := m.maxt, offset := m.offset, uncompressedSize := 0 }])
        (cbs + (goSlice full m.offset (m.offset + m.len)).length) h2 hbound'
      refine ⟨cbs', ?_⟩
      rw [hrec]
      have hfil : blockCRCok full m = true := by
        simp only [blockCRCok, decide_eq_true_eq]
        exact heq
      simp [blocksOfMetas, List.filter_cons, hfil, blockOfMeta, List.append_assoc]

/-! ### Claim C3: checksum handling of `NewByteChunk` -/

/-- Claim C3: when the parse reaches the metadata checksum, a CRC
mismatch over the metadata section fails the whole parse with
`ErrInvalidChecksum`; when the metadata checksum and the metadata
decode are clean and every block's payload and checksum lie within the
input, the parse succeeds and its block list contains exactly the
blocks whose payload CRCs verify (mismatching blocks are skipped with
a log event). -/
theorem checksum_spec (bs : List Nat) (fmt enc : Nat) (bsz tsz : Int)
    (hh : parseHeader bs = .ok (fmt, enc))
    (hlen : 12 ≤ bs.length) (hoff : metasOffOf bs ≤ bs.length - 12) :
    (storedMetaCRC bs ≠ crc32c (metaBytesOf bs) →
      NewByteChunk bs bsz tsz = .fail .invalidChecksum)
    ∧ (∀ ms, storedMetaCRC bs = crc32c (metaBytesOf bs) →
        decodeMetas (metaBytesOf bs) = some ms →
        (∀ m ∈ ms, m.offset + m.len + 4 ≤ bs.length) →
        ∃ cbs, NewByteChunk bs bsz tsz =
          .ok { blockSize := bsz, targetSize := tsz, blocks := blocksOfMetas bs ms,
                cutBlockSize := cbs, head := ⟨[], 0, 0, 0⟩,
                format := fmt, encoding := enc }) := by
  constructor
  · intro hne
    unfold NewByteChunk
    rw [hh]
    dsimp only
    rw [if_neg (by omega), if_neg (by omega)]
    simp only [decbuf.crc32]
    rw [if_pos hne]
  · intro ms heq hdm hbound
    unfold NewByteChunk
    rw [hh]
    dsimp only
    rw [if_neg (by omega), if_neg (by omega)]
    simp only [decbuf.crc32]
    rw [if_neg (not_not.2 heq)]
    unfold decodeMetas at hdm
    cases hu : readUvarint (metaBytesOf bs) with
    | none => rw [hu] at hdm; cases hdm
    | some p =>
    obtain ⟨n, r⟩ := p
    rw [hu, Option.some_bind] at hdm
    obtain ⟨pq, hnm, hfst⟩ := Option.map_eq_some'.1 hdm
    have hpq : pq = (ms, pq.2) := by rw [← hfst]
    rw [hpq] at hnm
    rw [decbuf_uvarint_of _ n r hu]
    obtain ⟨cbs', hloop⟩ := parseBlocksLoop_decoded bs n r ms pq.2 [] 0 hnm hbound
    rw [hloop]
    exact ⟨cbs', by simp⟩

set_option maxRecDepth 10000 in
/-- Witness for claim C3 at the concrete two-block serialization:
corrupting one metadata byte makes the parse fail with
`ErrInvalidChecksum`; corrupting one payload byte makes the parse
succeed with exactly the CRC-valid blocks kept. -/
theorem checksum_spec_witness :
    NewByteChunk badMetaW 1 0 = .fail .invalidChecksum
    ∧ ∃ cbs, NewByteChunk badBlockW 1 0 =
        .ok { blockSize := 1, targetSize := 0,
              blocks := blocksOfMetas badBlockW [⟨1, 1, 1, 6, 3⟩, ⟨1, 2, 2, 13, 3⟩],
              cutBlockSize := cbs, head := ⟨[], 0, 0, 0⟩, format := 2, encoding := 0 } := by
  constructor
  · exact (checksum_spec badMetaW 2 0 1 0 rfl (by decide) (by decide)).1 (by decide)
  · exact (checksum_spec badBlockW 2 0 1 0 rfl (by decide) (by decide)).2
      [⟨1, 1, 1, 6, 3⟩, ⟨1, 2, 2, 13, 3⟩] (by decide) (by decide) (by decide)

/-! ### Claim C7: the `SpaceFor` formula -/

/-- Claim C7: `SpaceFor(entry)` returns
`cutBlockSize + head.size + len(entry.Line) < targetSize` when
`targetSize > 0`, and `len(blocks) < 10` otherwise. -/
theorem spaceFor_spec (c : MemChunk) (e : entry) :
    c.spaceFor e = true ↔
      if 0 < c.targetSize then
        (c.cutBlockSize : Int) + (c.head.size : Int) + (e.s.length : Int) < c.targetSize
      else c.blocks.length < 10 := by
  unfold MemChunk.spaceFor
  by_cases h : c.targetSize > 0
  · rw [if_pos h, if_pos h]
    simp only [decide_eq_true_eq]
    omega
  · rw [if_neg h, if_neg h]
    simp [blocksPerChunk]

/-! ### Normal forms of `Append` -/

theorem appendR_guard (codec : Codec) (c : MemChunk) (ts : Int) (line : List Nat)
    (hg : c.head.isEmpty = true ∧ c.blocks ≠ [] ∧ (c.blocks.getLastD blk0).maxt > ts) :
    c.appendR codec ts line = (some .outOfOrder, c) := by
  unfold MemChunk.appendR
  rw [if_pos hg]

theorem appendR_headOld (codec : Codec) (c : MemChunk) (ts : Int) (line : List Nat)
    (hg : ¬(c.head.isEmpty = true ∧ c.blocks ≠ [] ∧ (c.blocks.getLastD blk0).maxt > ts))
    (hh : c.head.isEmpty = false ∧ c.head.maxt > ts) :
    c.appendR codec ts line = (some .outOfOrder, c) := by
  unfold MemChunk.appendR headBlock.appendR
  rw [if_neg hg, if_pos hh]

theorem appendR_ok (codec : Codec) (c : MemChunk) (ts : Int) (line : List Nat)
    (hg : ¬(c.head.isEmpty = true ∧ c.blocks ≠ [] ∧ (c.blocks.getLastD blk0).maxt > ts))
    (hh : ¬(c.head.isEmpty = false ∧ c.head.maxt > ts)) :
    c.appendR codec ts line =
      if ((c.head.push ts line).size : Int) ≥ c.blockSize
      then (none, ({ c with head := c.head.push ts line } : MemChunk).cut codec)
      else (none, { c with head := c.head.push ts line }) := by
  unfold MemChunk.appendR headBlock.appendR
  rw [if_neg hg, if_neg hh]

/-! ### Claim C2: the `Append` out-of-order condition -/

/-- Claim C2: `Append` returns `OutOfOrder` exactly when the head is
empty, blocks are non-empty and the entry is older than the last
block's `maxt`, or the head is non-empty and the entry is older than
the head's `maxt`; and an `OutOfOrder` result leaves the chunk
unchanged. -/
theorem append_outOfOrder_iff (codec : Codec) (c : MemChunk) (ts : Int) (line : List Nat) :
    ((c.appendR codec ts line).1 = some .outOfOrder ↔
      (c.head.isEmpty = true ∧ c.blocks ≠ [] ∧ ts < (c.blocks.getLastD blk0).maxt)
      ∨ (c.head.isEmpty = false ∧ ts < c.head.maxt))
    ∧ ((c.appendR codec ts line).1 = some .outOfOrder → (c.appendR codec ts line).2 = c) := by
  by_cases hg : c.head.isEmpty = true ∧ c.blocks ≠ [] ∧ (c.blocks.getLastD blk0).maxt > ts
  · rw [appendR_guard codec c ts line hg]
    exact ⟨⟨fun _ => Or.inl ⟨hg.1, hg.2.1, hg.2.2⟩, fun _ => rfl⟩, fun _ => rfl⟩
  · by_cases hh : c.head.isEmpty = false ∧ c.head.maxt > ts
    · rw [appendR_headOld codec c ts line hg hh]
      exact ⟨⟨fun _ => Or.inr ⟨hh.1, hh.2⟩, fun _ => rfl⟩, fun _ => rfl⟩
    · rw [appendR_ok codec c ts line hg hh]
      have hne : ¬ ((if ((c.head.push ts line).size : Int) ≥ c.blockSize
          then ((some ChunkErr.outOfOrder : Option ChunkErr), c)
          else (some ChunkErr.outOfOrder, c)).1 = some ChunkErr.outOfOrder) → True := fun _ => trivial
      constructor
      · constructor
        · intro h
          by_cases hc : ((c.head.push ts line).size : Int) ≥ c.blockSize
          · rw [if_pos hc] at h
            exact absurd h (by simp)
          · rw [if_neg hc] at h
            exact absurd h (by simp)
        · rintro (h | h)
          · exact absurd ⟨h.1, h.2.1, h.2.2⟩ hg
          · exact absurd ⟨h.1, h.2⟩ hh
      · intro h
        by_cases hc : ((c.head.push ts line).size : Int) ≥ c.blockSize
        · rw [if_pos hc] at h
          exact absurd h (by simp)
        · rw [if_neg hc] at h
          exact absurd h (by simp)

/-- Witness for claim C2 at a concrete chunk: appending `t = 5` after
`t = 10` fails with `OutOfOrder` and does not change the chunk. -/
theorem append_outOfOrder_witness :
    (cC2.appendR codec0 5 [121]).1 = some .outOfOrder
    ∧ (cC2.appendR codec0 5 [121]).2 = cC2 := by
  have h := append_outOfOrder_iff codec0 cC2 5 [121]
  have h1 : (cC2.appendR codec0 5 [121]).1 = some .outOfOrder :=
    h.1.mpr (Or.inr (by decide))
  exact ⟨h1, h.2 h1⟩

/-! ### Claim C6: the `cut` operation -/

/-- Claim C6: `cut()` is a no-op on an empty head; otherwise it appends
exactly one block carrying the head's entry count, `mint`, `maxt` and
uncompressed size, adds the compressed length to `cutBlockSize`, and
resets the head to empty; and `Append` performs this cut whenever the
head size reaches `blockSize` after a successful head append. -/
theorem cut_spec (codec : Codec) (c : MemChunk) :
    (c.head.isEmpty = true → c.cut codec = c)
    ∧ (c.head.isEmpty = false →
        (c.cut codec).blocks = c.blocks ++
          [{ b := c.head.serialise codec, numEntries := c.head.entries.length,
             mint := c.head.mint, maxt := c.head.maxt, offset := 0,
             uncompressedSize := c.head.size }]
        ∧ (c.cut codec).cutBlockSize = c.cutBlockSize + (c.head.serialise codec).length
        ∧ (c.cut codec).head.entries = [] ∧ (c.cut codec).head.mint = 0
        ∧ (c.cut codec).head.size = 0 ∧ (c.cut codec).head.isEmpty = true)
    ∧ (∀ ts line, (c.appendR codec ts line).1 = none →
        c.blockSize ≤ ((c.headAppended ts line).head.size : Int) →
        (c.appendR codec ts line).2 = (c.headAppended ts line).cut codec) := by
  refine ⟨fun he => by simp [MemChunk.cut, he], fun he => ?_, fun ts line h1 h2 => ?_⟩
  · rw [MemChunk.cut, if_neg (by simp [he])]
    exact ⟨rfl, rfl, rfl, rfl, rfl, rfl⟩
  · by_cases hg : c.head.isEmpty = true ∧ c.blocks ≠ [] ∧ (c.blocks.getLastD blk0).maxt > ts
    · rw [appendR_guard codec c ts line hg] at h1
      exact absurd h1 (by simp)
    · by_cases hh : c.head.isEmpty = false ∧ c.head.maxt > ts
      · rw [appendR_headOld codec c ts line hg hh] at h1
        exact absurd h1 (by simp)
      · rw [appendR_ok codec c ts line hg hh]
        have hge : ((c.head.push ts line).size : Int) ≥ c.blockSize := h2
        rw [if_pos hge]
        rfl

/-- Witness for claim C6: an empty-head chunk is unchanged by `cut`;
cutting a one-entry head produces the described block; an append that
fills the head cuts the appended head. -/
theorem cut_spec_witness :
    (NewMemChunk 0 4 0).cut codec0 = NewMemChunk 0 4 0
    ∧ (cC2.cut codec0).blocks = cC2.blocks ++
        [{ b := cC2.head.serialise codec0, numEntries := cC2.head.entries.length,
           mint := cC2.head.mint, maxt := cC2.head.maxt, offset := 0,
           uncompressedSize := cC2.head.size }]
    ∧ (cC2.appendR codec0 11 (List.replicate 100 98)).2 =
        (cC2.headAppended 11 (List.replicate 100 98)).cut codec0 := by
  refine ⟨(cut_spec codec0 (NewMemChunk 0 4 0)).1 (by decide),
          ((cut_spec codec0 cC2).2.1 (by decide)).1,
          (cut_spec codec0 cC2).2.2 11 (List.replicate 100 98) (by decide) (by decide)⟩

/-! ### Claim C8: the `Utilization` formula -/

/-- Counterexample to claim C8 as stated: for a chunk whose
`targetSize` is negative, the code takes the `targetSize != 0` branch
and divides by the (negative) target size, while the claim's
`targetSize > 0` guard assigns such a chunk the `uncompressed / (10 ×
blockSize)` formula. -/
theorem utilization_claim_cex :
    ¬ 0 < cNeg.targetSize
    ∧ cNeg.utilizationQ ≠ (cNeg.uncompressedSize : ℚ) / (10 * (cNeg.blockSize : ℚ)) := by
  have h : cNeg =
      (⟨1, -1, [⟨[2, 1, 97], 1, 1, 1, 0, 1⟩], 3, ⟨[], 0, 0, 1⟩, 2, 0⟩ : MemChunk) := by decide
  refine ⟨by decide, ?_⟩
  rw [h]
  norm_num [MemChunk.utilizationQ, MemChunk.compressedSize, MemChunk.uncompressedSize,
    headBlock.isEmpty]

/-- Claim C8 (amended: the compressed-size formula applies whenever
`targetSize ≠ 0`, not only when it is positive): `Utilization()` equals
`CompressedSize() / targetSize` when `targetSize ≠ 0` and
`UncompressedSize() / (10 × blockSize)` otherwise, and
`CompressedSize()` equals `cutBlockSize` plus `head.size` when the head
is non-empty (`cutBlockSize` alone when it is empty), with the
`float64` divisions modelled as exact rational divisions. -/
theorem utilization_spec (c : MemChunk) :
    (c.targetSize ≠ 0 → c.utilizationQ = (c.compressedSize : ℚ) / (c.targetSize : ℚ))
    ∧ (c.targetSize = 0 →
        c.utilizationQ = (c.uncompressedSize : ℚ) / (10 * (c.blockSize : ℚ)))
    ∧ (c.head.isEmpty = false → (c.compressedSize : Int) = c.cutBlockSize + c.head.size)
    ∧ (c.head.isEmpty = true → c.compressedSize = c.cutBlockSize) := by
  refine ⟨fun h => by simp [MemChunk.utilizationQ, h],
          fun h => ?_, fun h => ?_, fun h => ?_⟩
  · simp only [MemChunk.utilizationQ, h]
    norm_num [blocksPerChunk]
  · simp only [MemChunk.compressedSize, h, if_neg]
    push_cast
    omega
  · simp [MemChunk.compressedSize, h]

/-- Witness for claim C8 (amended) at two concrete chunks: one with a
negative target size and a non-empty head, one with no target size and
an empty head. -/
theorem utilization_spec_witness :
    cA.utilizationQ = (cA.compressedSize : ℚ) / (cA.targetSize : ℚ)
    ∧ (cA.compressedSize : Int) = cA.cutBlockSize + cA.head.size
    ∧ cB.utilizationQ = (cB.uncompressedSize : ℚ) / (10 * (cB.blockSize : ℚ))
    ∧ cB.compressedSize = cB.cutBlockSize :=
  ⟨(utilization_spec cA).1 (by decide), (utilization_spec cA).2.2.1 (by decide),
   (utilization_spec cB).2.1 (by decide), (utilization_spec cB).2.2.2 (by decide)⟩

/-! ### Claim C4: parsing short or corrupt inputs -/

/-- Claim C4 (refuted, code bug): on the 5-byte input consisting of a
valid magic number and version byte 1, `NewByteChunk` evaluates
`b[len(b)-8:]` with a negative start index and panics instead of
returning an error. -/
theorem newByteChunk_short_input_panics :
    NewByteChunk [1, 46, 229, 106, 1] 256 0 = .panicked := by decide

/-! ### Claim C9: iterator error stickiness -/

/-- Counterexample to claim C9 as stated: after the first `Next` on a
block whose stream declares a `2 ^ 30`-byte line has set the
`LineTooLong` error and closed the iterator, the next `Next` call does
not return `false` — it dereferences the nil `bufReader` and panics. -/
theorem iter_err_claim_cex :
    ((nextR itW0 codec0).stateOf).itErr = some (.lineTooLong (2 ^ 30))
    ∧ nextR ((nextR itW0 codec0).stateOf) codec0 = .panicked := by
  constructor
  · decide
  · decide

/-- Claim C9 (amended: only the erroring call itself returns `false`; a
later `Next` on the closed iterator panics on the nil reader instead of
returning `false`): when `moveNext` produces a decode error, that
`Next` call returns `false` and closes the iterator, `Error()` and
`Close()` keep returning that cause, and a subsequent `Next` call
panics. -/
theorem iter_err_spec (codec : Codec) (st : ItState) (data : List Nat) (e : IterErr)
    (h1 : st.closed = false) (h2 : st.rdr = some data)
    (h3 : moveNextM data = .errR e) :
    nextR st codec = .res false ({ st with itErr := some e }).closeSt
    ∧ ({ st with itErr := some e }).closeSt.errorR = some e
    ∧ ({ st with itErr := some e }).closeSt.closeR.1 = some e
    ∧ nextR (({ st with itErr := some e }).closeSt) codec = .panicked := by
  have hne : ¬ (st.closed = false ∧ st.rdr = none) := by
    rintro ⟨-, hn⟩; rw [h2] at hn; cases hn
  have hcl : ({ st with itErr := some e }).closeSt =
      { st with itErr := some e, closed := true, rdr := none, origBytes := [] } := by
    simp [ItState.closeSt, h1]
  refine ⟨?_, ?_, ?_, ?_⟩
  · unfold nextR
    rw [if_neg hne]
    simp only [h2, h3]
  · rw [hcl]; rfl
  · rw [hcl]; rfl
  · rw [hcl]; unfold nextR
    simp

/-! ### Claim C5: temporal ordering of blocks and head -/

theorem chunkOrdered_new (enc : Nat) (bsz tsz : Int) :
    chunkOrdered (NewMemChunk enc bsz tsz) := by
  refine ⟨List.chain'_nil, by simp [NewMemChunk], fun _ => rfl, fun hf => ?_⟩
  simp [NewMemChunk, headBlock.isEmpty] at hf

theorem chunkOrdered_cut (codec : Codec) (c : MemChunk) (h : chunkOrdered c) :
    chunkOrdered (c.cut codec) := by
  obtain ⟨h1, h2, h3, h4⟩ := h
  unfold MemChunk.cut
  by_cases he : c.head.isEmpty = true
  · rw [if_pos he]; exact ⟨h1, h2, h3, h4⟩
  · rw [if_neg he]
    have hf : c.head.isEmpty = false := by
      cases hv : c.head.isEmpty
      · rfl
      · exact absurd hv he
    obtain ⟨h4a, h4b⟩ := h4 hf
    refine ⟨?_, ?_, fun _ => rfl, fun hfalse => ?_⟩
    · rw [List.chain'_append]
      refine ⟨h1, List.chain'_singleton _, fun x hx y hy => ?_⟩
      simp only [List.head?_cons, Option.mem_def, Option.some.injEq] at hy
      subst hy
      exact h4b x hx
    · intro b hb
      rcases List.mem_append.1 hb with hb | hb
      · exact h2 b hb
      · simp only [List.mem_singleton] at hb
        subst hb
        exact h4a
    · simp [headBlock.isEmpty] at hfalse

theorem chunkOrdered_push (c : MemChunk) (ts : Int) (line : List Nat)
    (hg : ¬(c.head.isEmpty = true ∧ c.blocks ≠ [] ∧ (c.blocks.getLastD blk0).maxt > ts))
    (hh : ¬(c.head.isEmpty = false ∧ c.head.maxt > ts))
    (h : chunkOrdered c) :
    chunkOrdered { c with head := c.head.push ts line } := by
  obtain ⟨h1, h2, h3, h4⟩ := h
  refine ⟨h1, h2, fun habs => ?_, fun _ => ?_⟩
  · simp [headBlock.push, headBlock.isEmpty] at habs
  · have hmaxt : (c.head.push ts line).maxt = ts := rfl
    cases hv : c.head.isEmpty
    · -- head was non-empty
      have hle : c.head.maxt ≤ ts := by
        by_contra hcon
        exact hh ⟨hv, by omega⟩
      obtain ⟨h4a, h4b⟩ := h4 hv
      constructor
      · show (if c.head.mint = 0 ∨ c.head.mint > ts then ts else c.head.mint) ≤ ts
        split_ifs <;> omega
      · intro b hb
        have hbase := h4b b hb
        show b.maxt ≤ (if c.head.mint = 0 ∨ c.head.mint > ts then ts else c.head.mint)
        split_ifs <;> omega
    · -- head was empty: its mint sentinel is 0
      have hm0 : c.head.mint = 0 := h3 hv
      have hmint : (c.head.push ts line).mint = ts := by
        show (if c.head.mint = 0 ∨ c.head.mint > ts then ts else c.head.mint) = ts
        rw [if_pos (Or.inl hm0)]
      constructor
      · rw [hmint, hmaxt]
      · intro b hb
        rw [hmint]
        rcases List.eq_nil_or_concat c.blocks with hnil | ⟨l2, a, hcat⟩
        · rw [hnil] at hb
          simp at hb
        · have hne : c.blocks ≠ [] := by rw [hcat]; simp
          have hlast : (c.blocks.getLastD blk0).maxt ≤ ts := by
            by_contra hcon
            exact hg ⟨hv, hne, by omega⟩
          have hb' : b = c.blocks.getLastD blk0 := by
            rw [List.getLastD_eq_getLast?, Option.mem_def.1 hb]
            rfl
          rw [hb']
          exact hlast

theorem chunkOrdered_appendR (codec : Codec) (c : MemChunk) (ts : Int) (line : List Nat)
    (h : chunkOrdered c) : chunkOrdered (c.appendR codec ts line).2 := by
  by_cases hg : c.head.isEmpty = true ∧ c.blocks ≠ [] ∧ (c.blocks.getLastD blk0).maxt > ts
  · rw [appendR_guard codec c ts line hg]; exact h
  · by_cases hh : c.head.isEmpty = false ∧ c.head.maxt > ts
    · rw [appendR_headOld codec c ts line hg hh]; exact h
    · rw [appendR_ok codec c ts line hg hh]
      have hmid := chunkOrdered_push c ts line hg hh h
      by_cases hc : ((c.head.push ts line).size : Int) ≥ c.blockSize
      · rw [if_pos hc]; exact chunkOrdered_cut codec _ hmid
      · rw [if_neg hc]; exact hmid

theorem chunkOrdered_runOps (codec : Codec) (ops : List Op) :
    ∀ c, chunkOrdered c → chunkOrdered (runOps codec c ops) := by
  induction ops with
  | nil => exact fun c h => h
  | cons op rest ih =>
    intro c h
    show chunkOrdered (runOps codec (applyOp codec c op) rest)
    cases op with
    | app ts line => exact ih _ (chunkOrdered_appendR codec c ts line h)
    | docut => exact ih _ (chunkOrdered_cut codec c h)

/-- Claim C5: after any sequence of `Append` and `cut` operations
starting from a new chunk, `blocks[i].maxt ≤ blocks[i+1].mint` for
every index, and when both the block list and the head are non-empty,
`head.mint` is at least the last block's `maxt`. -/
theorem blocks_ordered (codec : Codec) (enc : Nat) (bsz tsz : Int) (ops : List Op) :
    (∀ i, ∀ h : i + 1 < (runOps codec (NewMemChunk enc bsz tsz) ops).blocks.length,
      ((runOps codec (NewMemChunk enc bsz tsz) ops).blocks.get ⟨i, Nat.lt_of_succ_lt h⟩).maxt ≤
        ((runOps codec (NewMemChunk enc bsz tsz) ops).blocks.get ⟨i + 1, h⟩).mint)
    ∧ ((runOps codec (NewMemChunk enc bsz tsz) ops).blocks ≠ [] →
        (runOps codec (NewMemChunk enc bsz tsz) ops).head.isEmpty = false →
        ((runOps codec (NewMemChunk enc bsz tsz) ops).blocks.getLastD blk0).maxt ≤
          (runOps codec (NewMemChunk enc bsz tsz) ops).head.mint) := by
  obtain ⟨h1, -, -, h4⟩ :=
    chunkOrdered_runOps codec ops _ (chunkOrdered_new enc bsz tsz)
  constructor
  · intro i hi
    exact List.chain'_iff_get.1 h1 i (by omega)
  · intro hne hf
    cases hl : (runOps codec (NewMemChunk enc bsz tsz) ops).blocks.getLast? with
    | none => exact absurd (List.getLast?_eq_none_iff.mp hl) hne
    | some b =>
      have hb := (h4 hf).2 b (Option.mem_def.2 hl)
      rw [List.getLastD_eq_getLast?, hl]
      exact hb

/-- Witness for claim C5 at concrete operation sequences: two cut
blocks are chained, and a non-empty head starts no earlier than the
last block ends. -/
theorem blocks_ordered_witness :
    ((runOps codec0 (NewMemChunk 0 1 0) opsW).blocks.get ⟨0, by decide⟩).maxt ≤
      ((runOps codec0 (NewMemChunk 0 1 0) opsW).blocks.get ⟨1, by decide⟩).mint
    ∧ ((runOps codec0 (NewMemChunk 0 1 0) opsW2).blocks.getLastD blk0).maxt ≤
        (runOps codec0 (NewMemChunk 0 1 0) opsW2).head.mint := by
  exact ⟨(blocks_ordered codec0 0 1 0 opsW).1 0 (by decide),
         (blocks_ordered codec0 0 1 0 opsW2).2 (by decide) (by decide)⟩

/-- Witness for claim C9 (amended) at a concrete initialized iterator
whose stream declares a `2 ^ 30`-byte line. -/
theorem iter_err_spec_witness :
    nextR itW codec0 = .res false ({ itW with itErr := some (.lineTooLong (2 ^ 30)) }).closeSt
    ∧ ({ itW with itErr := some (.lineTooLong (2 ^ 30)) }).closeSt.errorR =
        some (.lineTooLong (2 ^ 30))
    ∧ ({ itW with itErr := some (.lineTooLong (2 ^ 30)) }).closeSt.closeR.1 =
        some (.lineTooLong (2 ^ 30))
    ∧ nextR (({ itW with itErr := some (.lineTooLong (2 ^ 30)) }).closeSt) codec0 = .panicked :=
  iter_err_spec codec0 itW longLineBytes (.lineTooLong (2 ^ 30)) rfl rfl (by decide)


/-! ### Decoding what `serialise` encoded -/

theorem encodeEntry_length_pos (e : entry) : 0 < (encodeEntry e).length := by
  unfold encodeEntry putVarint
  have := putUvarint_length_pos (zigzag e.t)
  simp only [List.length_append]
  omega

theorem moveNextM_encodeEntry (e : entry) (rest : List Nat)
    (h : e.s.length < maxLineLength) :
    moveNextM (encodeEntry e ++ rest) = .entry e.t e.s rest := by
  unfold moveNextM encodeEntry
  simp only [List.append_assoc]
  rw [readVarint_putVarint]
  dsimp only
  rw [readUvarintPartial_putUvarint]
  dsimp only
  rw [if_neg (by omega)]
  rw [if_neg (by simp)]
  rw [List.take_left, List.drop_left]

theorem decodeEntriesFuel_encode :
    ∀ (es : List entry) (f : Nat),
      (∀ e ∈ es, e.s.length < maxLineLength) →
      (encodeEntries es).length < f →
      decodeEntriesFuel f (encodeEntries es) = some es := by
  intro es
  induction es with
  | nil =>
    intro f _ hf
    cases f with
    | zero => omega
    | succ f => simp [decodeEntriesFuel, encodeEntries, moveNextM, readVarint, readUvarint]
  | cons e rest ih =>
    intro f hlines hf
    have hee : encodeEntries (e :: rest) = encodeEntry e ++ encodeEntries rest := by
      simp [encodeEntries]
    cases f with
    | zero => omega
    | succ f =>
      rw [hee] at hf ⊢
      unfold decodeEntriesFuel
      rw [moveNextM_encodeEntry e _ (hlines e (by simp))]
      dsimp only
      have hlen := encodeEntry_length_pos e
      rw [List.length_append] at hf
      rw [ih f (fun x hx => hlines x (List.mem_cons_of_mem e hx)) (by omega)]
      rfl

theorem decodeEntries_encode (es : List entry)
    (h : ∀ e ∈ es, e.s.length < maxLineLength) :
    decodeEntries (encodeEntries es) = some es :=
  decodeEntriesFuel_encode es _ h (by omega)

theorem mapM_blockDecoded (codec : Codec) (hinv : ∀ l, codec.decomp (codec.comp l) = l) :
    ∀ (blocks : List block) (bss : List (List entry)),
      blocks.map block.b = bss.map (fun l => codec.comp (encodeEntries l)) →
      (∀ l ∈ bss, ∀ e ∈ l, e.s.length < maxLineLength) →
      blocks.mapM (blockDecodedEntries codec) = some bss := by
  intro blocks
  induction blocks with
  | nil =>
    intro bss hmap _
    cases bss with
    | nil => rfl
    | cons l ls => simp at hmap
  | cons blk rest ih =>
    intro bss hmap hlines
    cases bss with
    | nil => simp at hmap
    | cons l ls =>
      simp only [List.map_cons, List.cons.injEq] at hmap
      obtain ⟨hb, hrest⟩ := hmap
      have hone : blockDecodedEntries codec blk = some l := by
        rw [blockDecodedEntries, hb, hinv, decodeEntries_encode l (hlines l (by simp))]
      rw [List.mapM_cons, hone, ih ls hrest
        (fun x hx e he => hlines x (List.mem_cons_of_mem l hx) e he)]
      rfl

theorem decodedEntries_of_shapes (codec : Codec)
    (hinv : ∀ l, codec.decomp (codec.comp l) = l) (c : MemChunk) (bss : List (List entry))
    (hmap : c.blocks.map block.b = bss.map (fun l => codec.comp (encodeEntries l)))
    (hlines : ∀ l ∈ bss, ∀ e ∈ l, e.s.length < maxLineLength) :
    c.decodedEntries codec = some (bss.flatten ++ c.head.entries) := by
  unfold MemChunk.decodedEntries
  rw [mapM_blockDecoded codec hinv c.blocks bss hmap hlines]
  rfl

/-! ### The build invariant through `Append` -/

theorem appendR_step (codec : Codec) (c : MemChunk) (e : entry) (bss : List (List entry))
    (done : List entry) (t0 : Int) (hS : Shapes codec c bss done) (hR : Ready c t0)
    (ht : t0 ≤ e.t) :
    (c.appendR codec e.t e.s).1 = none ∧
    ∃ bss', Shapes codec (c.appendR codec e.t e.s).2 bss' (done ++ [e]) ∧
            Ready (c.appendR codec e.t e.s).2 e.t := by
  have hg : ¬(c.head.isEmpty = true ∧ c.blocks ≠ [] ∧ (c.blocks.getLastD blk0).maxt > e.t) := by
    rintro ⟨h1, h2, h3⟩
    rcases hR.2 h1 with h | h
    · exact h2 h
    · omega
  have hh : ¬(c.head.isEmpty = false ∧ c.head.maxt > e.t) := by
    rintro ⟨h1, h2⟩
    have := hR.1 h1
    omega
  rw [appendR_ok codec c e.t e.s hg hh]
  have hSmid : Shapes codec { c with head := c.head.push e.t e.s } bss (done ++ [e]) := by
    refine ⟨hS.1, ?_⟩
    show bss.flatten ++ (c.head.entries ++ [⟨e.t, e.s⟩]) = done ++ [e]
    rw [← List.append_assoc, hS.2]
  by_cases hc : ((c.head.push e.t e.s).size : Int) ≥ c.blockSize
  · rw [if_pos hc]
    refine ⟨rfl, bss ++ [(c.head.push e.t e.s).entries], ?_, ?_⟩
    · -- Shapes after the cut
      have hne : ({ c with head := c.head.push e.t e.s } : MemChunk).head.isEmpty = false := by
        simp [headBlock.push, headBlock.isEmpty]
      constructor
      · show (({ c with head := c.head.push e.t e.s } : MemChunk).cut codec).blocks.map block.b = _
        unfold MemChunk.cut
        rw [if_neg (by simp [hne])]
        simp only [List.map_append, List.map_cons, List.map_nil, hSmid.1,
          headBlock.serialise]
      · show _ ++ (({ c with head := c.head.push e.t e.s } : MemChunk).cut codec).head.entries
            = done ++ [e]
        unfold MemChunk.cut
        rw [if_neg (by simp [hne])]
        simpa using hSmid.2
    · -- Ready after the cut: the head is empty and the new last block ends at e.t
      constructor
      · intro habs
        unfold MemChunk.cut at habs
        rw [if_neg (by simp [headBlock.push, headBlock.isEmpty])] at habs
        simp [headBlock.isEmpty] at habs
      · intro _
        right
        unfold MemChunk.cut
        rw [if_neg (by simp [headBlock.push, headBlock.isEmpty])]
        show ((c.blocks ++ [_]).getLastD blk0).maxt ≤ e.t
        rw [List.getLastD_concat]
        exact le_rfl
  · rw [if_neg hc]
    refine ⟨rfl, bss, hSmid, ?_, ?_⟩
    · intro _
      exact le_rfl
    · intro habs
      simp [headBlock.push, headBlock.isEmpty] at habs

theorem appendAll_build (codec : Codec) :
    ∀ (es : List entry) (c : MemChunk) (bss : List (List entry)) (done : List entry)
      (t0 : Int),
      Shapes codec c bss done → Ready c t0 →
      List.Chain' (· ≤ ·) (t0 :: es.map entry.t) →
      appendAllOk codec c es = true ∧
      ∃ bss', Shapes codec (appendAll codec c es) bss' (done ++ es) := by
  intro es
  induction es with
  | nil =>
    intro c bss done t0 hS _ _
    exact ⟨rfl, bss, by simpa using hS⟩
  | cons e rest ih =>
    intro c bss done t0 hS hR hch
    rw [List.map_cons, List.chain'_cons] at hch
    obtain ⟨ht, hch2⟩ := hch
    obtain ⟨hok, bss1, hS1, hR1⟩ := appendR_step codec c e bss done t0 hS hR ht
    have hrec := ih (c.appendR codec e.t e.s).2 bss1 (done ++ [e]) e.t hS1 hR1 hch2
    constructor
    · show appendAllOk codec c (e :: rest) = true
      unfold appendAllOk
      rw [show c.appendR codec e.t e.s = (none, (c.appendR codec e.t e.s).2) from
        Prod.ext hok rfl]
      exact hrec.1
    · obtain ⟨bss', hS'⟩ := hrec.2
      refine ⟨bss', ?_⟩
      show Shapes codec (appendAll codec (c.appendR codec e.t e.s).2 rest) bss' (done ++ e :: rest)
      rw [show done ++ e :: rest = (done ++ [e]) ++ rest by simp]
      exact hS'

/-! ### Parsing back what `Bytes` wrote -/

theorem decbuf_byteRead_cons (x : Nat) (r : List Nat) :
    decbuf.byteRead ⟨x :: r, none⟩ = (x, ⟨r, none⟩) := rfl

theorem decbuf_be32_put (n : Nat) (r : List Nat) (hn : n < 2 ^ 32) :
    decbuf.be32 ⟨putBE32 n ++ r, none⟩ = (n, ⟨r, none⟩) := by
  unfold decbuf.be32
  dsimp only
  rw [if_pos (by simp [putBE32]), getBE32_putBE32, Nat.mod_eq_of_lt hn]
  have hdrop : (putBE32 n ++ r).drop 4 = r := by simp [putBE32]
  rw [hdrop]

theorem parseHeader_chunkHeader (c : MemChunk) (r : List Nat)
    (hfmt : c.format = 2) (henc : c.encoding < 256) :
    parseHeader (chunkHeader c ++ r) = .ok (2, c.encoding) := by
  have hhdr : chunkHeader c ++ r = putBE32 magicNumber ++ (2 :: c.encoding % 256 :: r) := by
    simp [chunkHeader, hfmt]
  rw [hhdr]
  unfold parseHeader
  dsimp only
  rw [decbuf_be32_put magicNumber _ (by norm_num [magicNumber])]
  dsimp only
  rw [decbuf_byteRead_cons]
  dsimp only [decbuf.err]
  rw [if_neg (by simp), if_neg (by simp), if_neg (by norm_num), if_pos rfl,
      decbuf_byteRead_cons]
  dsimp only [decbuf.err]
  rw [if_neg (by simp), Nat.mod_eq_of_lt henc]

theorem cut_format (codec : Codec) (c : MemChunk) : (c.cut codec).format = c.format := by
  unfold MemChunk.cut
  split <;> rfl

theorem cut_encoding (codec : Codec) (c : MemChunk) :
    (c.cut codec).encoding = c.encoding := by
  unfold MemChunk.cut
  split <;> rfl

theorem appendR_meta (codec : Codec) (c : MemChunk) (ts : Int) (line : List Nat) :
    ((c.appendR codec ts line).2).format = c.format ∧
    ((c.appendR codec ts line).2).encoding = c.encoding := by
  by_cases hg : c.head.isEmpty = true ∧ c.blocks ≠ [] ∧ (c.blocks.getLastD blk0).maxt > ts
  · rw [appendR_guard codec c ts line hg]; exact ⟨rfl, rfl⟩
  · by_cases hh : c.head.isEmpty = false ∧ c.head.maxt > ts
    · rw [appendR_headOld codec c ts line hg hh]; exact ⟨rfl, rfl⟩
    · rw [appendR_ok codec c ts line hg hh]
      by_cases hc : ((c.head.push ts line).size : Int) ≥ c.blockSize
      · rw [if_pos hc]
        exact ⟨cut_format codec _, cut_encoding codec _⟩
      · rw [if_neg hc]; exact ⟨rfl, rfl⟩

theorem appendAll_meta (codec : Codec) :
    ∀ (es : List entry) (c : MemChunk),
      (appendAll codec c es).format = c.format ∧
      (appendAll codec c es).encoding = c.encoding := by
  intro es
  induction es with
  | nil => exact fun c => ⟨rfl, rfl⟩
  | cons e rest ih =>
    intro c
    have h1 := ih (c.appendR codec e.t e.s).2
    have h2 := appendR_meta codec c e.t e.s
    exact ⟨h1.1.trans h2.1, h1.2.trans h2.2⟩

theorem writeBlocksGo_cons (off : Nat) (b : block) (rest : List block) :
    writeBlocksGo off (b :: rest) =
      ((b.b ++ putBE32 (crc32c b.b)) ++
        (writeBlocksGo (off + (b.b ++ putBE32 (crc32c b.b)).length) rest).1,
       { b with offset := off } ::
        (writeBlocksGo (off + (b.b ++ putBE32 (crc32c b.b)).length) rest).2) := rfl

theorem writeBlocksGo_length (off : Nat) (bs : List block) :
    (writeBlocksGo off bs).2.length = bs.length := by
  induction bs generalizing off with
  | nil => rfl
  | cons b rest ih => simp [writeBlocksGo_cons, ih]

theorem writeBlocksGo_map_b (off : Nat) (bs : List block) :
    (writeBlocksGo off bs).2.map block.b = bs.map block.b := by
  induction bs generalizing off with
  | nil => rfl
  | cons b rest ih => simp [writeBlocksGo_cons, ih]

theorem goSlice_append' (a b c : List Nat) :
    goSlice (a ++ (b ++ c)) a.length (a.length + b.length) = b := by
  rw [← List.append_assoc]
  exact goSlice_append a b c

theorem parseBlocksLoop_keep (full : List Nat) (n : Nat) (d : decbuf) (acc : List block)
    (cbs : Nat) (m : Meta) (d' : decbuf)
    (hm : readMeta d = (m, d')) (he : d'.e = none)
    (h1 : m.offset + m.len ≤ full.length) (h2 : 4 ≤ full.length - (m.offset + m.len))
    (hcrc : getBE32 (full.drop (m.offset + m.len)) =
      crc32c (goSlice full m.offset (m.offset + m.len))) :
    parseBlocksLoop full (n + 1) d acc cbs =
      parseBlocksLoop full n d'
        (acc ++ [{ b := goSlice full m.offset (m.offset + m.len), numEntries := m.numEntries,
                   mint := m.mint, maxt := m.maxt, offset := m.offset,
                   uncompressedSize := 0 }])
        (cbs + (goSlice full m.offset (m.offset + m.len)).length) := by
  conv_lhs => rw [parseBlocksLoop]
  rw [hm]
  dsimp only
  rw [if_neg (by omega), if_neg (by omega), if_neg (not_not.2 hcrc)]
  simp [decbuf.err, he]

theorem parseBlocksLoop_serialized :
    ∀ (bs : List block) (pre tail mrest : List Nat) (acc : List block) (cbs : Nat),
      parseBlocksLoop (pre ++ ((writeBlocksGo pre.length bs).1 ++ tail))
          bs.length
          ⟨((writeBlocksGo pre.length bs).2.map blockMeta).flatten ++ mrest, none⟩ acc cbs
        = .done (acc ++ (writeBlocksGo pre.length bs).2.map
            (fun b => { b with uncompressedSize := 0 }))
            (cbs + (bs.map (fun b => b.b.length)).sum) := by
  intro bs
  induction bs with
  | nil =>
    intro pre tail mrest acc cbs
    simp [writeBlocksGo, parseBlocksLoop]
  | cons b rest ih =>
    intro pre tail mrest acc cbs
    rw [writeBlocksGo_cons]
    dsimp only
    set seg := b.b ++ putBE32 (crc32c b.b) with hseg
    set w1 := (writeBlocksGo (pre.length + seg.length) rest).1 with hw1
    set w2 := (writeBlocksGo (pre.length + seg.length) rest).2 with hw2
    have hseglen : seg.length = b.b.length + 4 := by
      rw [hseg]
      simp [putBE32]
    have hlenfull : (pre ++ ((seg ++ w1) ++ tail)).length =
        pre.length + seg.length + w1.length + tail.length := by
      simp only [List.length_append]
      omega
    have hassoc : pre ++ ((seg ++ w1) ++ tail) =
        pre ++ (b.b ++ (putBE32 (crc32c b.b) ++ (w1 ++ tail))) := by
      rw [hseg]
      simp [List.append_assoc]
    have hslice : goSlice (pre ++ ((seg ++ w1) ++ tail))
        pre.length (pre.length + b.b.length) = b.b := by
      rw [hassoc]
      exact goSlice_append' pre b.b _
    have hdrop : (pre ++ ((seg ++ w1) ++ tail)).drop (pre.length + b.b.length) =
        putBE32 (crc32c b.b) ++ (w1 ++ tail) := by
      rw [hassoc, ← List.length_append pre b.b, ← List.append_assoc]
      exact List.drop_left _ _
    have hcrcv : getBE32 ((pre ++ ((seg ++ w1) ++ tail)).drop (pre.length + b.b.length)) =
        crc32c (goSlice (pre ++ ((seg ++ w1) ++ tail))
          pre.length (pre.length + b.b.length)) := by
      rw [hdrop, hslice, getBE32_putBE32, Nat.mod_eq_of_lt (crc32c_lt _)]
    have hmetas : (({ b with offset := pre.length } :: w2).map blockMeta).flatten ++ mrest
        = blockMeta { b with offset := pre.length } ++
          ((w2.map blockMeta).flatten ++ mrest) := by
      simp [List.append_assoc]
    rw [show (b :: rest).length = rest.length + 1 from rfl, hmetas]
    rw [parseBlocksLoop_keep (pre ++ ((seg ++ w1) ++ tail)) rest.length _ acc cbs
        ⟨b.numEntries, b.mint, b.maxt, pre.length, b.b.length⟩
        ⟨(w2.map blockMeta).flatten ++ mrest, none⟩
        (readMeta_encoded { b with offset := pre.length } _) rfl
        (by dsimp only; omega) (by dsimp only; omega) hcrcv]
    rw [hslice]
    have H := ih (pre ++ seg) tail mrest
      (acc ++ [{ b := b.b, numEntries := b.numEntries, mint := b.mint, maxt := b.maxt,
                 offset := pre.length, uncompressedSize := 0 }])
      (cbs + b.b.length)
    rw [List.length_append] at H
    rw [← hw1, ← hw2] at H
    rw [show (pre ++ seg) ++ (w1 ++ tail) = pre ++ ((seg ++ w1) ++ tail) from by
      simp [List.append_assoc]] at H
    rw [H]
    simp [List.append_assoc, Nat.add_assoc]

/-! ### Claim C1: full round-trip -/

theorem Shapes_cut (codec : Codec) (c : MemChunk) (bss : List (List entry))
    (done : List entry) (hS : Shapes codec c bss done) :
    ∃ bss', Shapes codec (c.cut codec) bss' done ∧ (c.cut codec).head.entries = [] := by
  by_cases he : c.head.isEmpty = true
  · rw [cut_of_empty codec c he]
    have hnil : c.head.entries = [] :=
      List.length_eq_zero.mp (by simpa [headBlock.isEmpty] using he)
    exact ⟨bss, hS, hnil⟩
  · refine ⟨bss ++ [c.head.entries], ⟨?_, ?_⟩, ?_⟩
    · show (c.cut codec).blocks.map block.b = _
      unfold MemChunk.cut
      rw [if_neg he]
      simp [hS.1, headBlock.serialise]
    · show _ ++ (c.cut codec).head.entries = done
      unfold MemChunk.cut
      rw [if_neg he]
      simpa using hS.2
    · unfold MemChunk.cut
      rw [if_neg he]

theorem decbuf_uvarint_metaSec (ms : List block) :
    decbuf.uvarint ⟨metaSec ms, none⟩ =
      (ms.length, ⟨(ms.map blockMeta).flatten, none⟩) := by
  rw [metaSec]
  exact decbuf_uvarint_put _ _

theorem newByteChunk_serialized (fmt enc : Nat) (bsz tsz : Int) (hdr pb meta : List Nat)
    (bs : List block)
    (hph : ∀ r, parseHeader (hdr ++ r) = .ok (fmt, enc))
    (hpb : pb = (writeBlocksGo hdr.length bs).1)
    (hmeta : meta = metaSec (writeBlocksGo hdr.length bs).2)
    (hfit : hdr.length + pb.length < 2 ^ 64) :
    NewByteChunk (hdr ++ (pb ++ (meta ++ (putBE32 (crc32c meta) ++
        putBE64 (hdr.length + pb.length))))) bsz tsz
      = .ok { blockSize := bsz, targetSize := tsz,
              blocks := (writeBlocksGo hdr.length bs).2.map
                (fun b => { b with uncompressedSize := 0 }),
              cutBlockSize := (bs.map (fun b => b.b.length)).sum,
              head := ⟨[], 0, 0, 0⟩, format := fmt, encoding := enc } := by
  have hlen : (hdr ++ (pb ++ (meta ++ (putBE32 (crc32c meta) ++
      putBE64 (hdr.length + pb.length))))).length
      = hdr.length + pb.length + meta.length + 12 := by
    simp only [List.length_append, putBE32_length, putBE64_length]
    omega
  have hmoffval : metasOffOf (hdr ++ (pb ++ (meta ++ (putBE32 (crc32c meta) ++
      putBE64 (hdr.length + pb.length))))) = hdr.length + pb.length := by
    rw [metasOffOf, hlen]
    have h8 : hdr ++ (pb ++ (meta ++ (putBE32 (crc32c meta) ++
        putBE64 (hdr.length + pb.length))))
        = (hdr ++ pb ++ meta ++ putBE32 (crc32c meta)) ++
          putBE64 (hdr.length + pb.length) := by
      simp [List.append_assoc]
    have hxlen : (hdr ++ pb ++ meta ++ putBE32 (crc32c meta)).length
        = hdr.length + pb.length + meta.length + 4 := by
      simp only [List.length_append, putBE32_length]
    rw [h8, show hdr.length + pb.length + meta.length + 12 - 8
        = (hdr ++ pb ++ meta ++ putBE32 (crc32c meta)).length from by omega]
    rw [List.drop_left]
    rw [show putBE64 (hdr.length + pb.length)
        = putBE64 (hdr.length + pb.length) ++ [] from by simp, getBE64_putBE64]
    exact Nat.mod_eq_of_lt hfit
  have hmetaBytes : metaBytesOf (hdr ++ (pb ++ (meta ++ (putBE32 (crc32c meta) ++
      putBE64 (hdr.length + pb.length))))) = meta := by
    rw [metaBytesOf, hmoffval, hlen]
    have h1 : hdr ++ (pb ++ (meta ++ (putBE32 (crc32c meta) ++
        putBE64 (hdr.length + pb.length))))
        = (hdr ++ pb) ++ (meta ++ (putBE32 (crc32c meta) ++
          putBE64 (hdr.length + pb.length))) := by
      simp [List.append_assoc]
    rw [h1, show hdr.length + pb.length + meta.length + 12 - 12
        = (hdr ++ pb).length + meta.length from by simp [List.length_append],
      show hdr.length + pb.length = (hdr ++ pb).length from (List.length_append hdr pb).symm]
    exact goSlice_append' (hdr ++ pb) meta _
  have hstored : storedMetaCRC (hdr ++ (pb ++ (meta ++ (putBE32 (crc32c meta) ++
      putBE64 (hdr.length + pb.length))))) = crc32c meta := by
    rw [storedMetaCRC, hlen]
    have h1 : hdr ++ (pb ++ (meta ++ (putBE32 (crc32c meta) ++
        putBE64 (hdr.length + pb.length))))
        = ((hdr ++ pb) ++ meta) ++ (putBE32 (crc32c meta) ++
          putBE64 (hdr.length + pb.length)) := by
      simp [List.append_assoc]
    rw [h1, show hdr.length + pb.length + meta.length + 12 - 12
        = ((hdr ++ pb) ++ meta).length from by simp only [List.length_append]; omega]
    rw [List.drop_left, getBE32_putBE32, Nat.mod_eq_of_lt (crc32c_lt _)]
  unfold NewByteChunk
  rw [hph]
  dsimp only
  rw [if_neg (by rw [hlen]; omega), if_neg (by rw [hlen, hmoffval]; omega)]
  simp only [decbuf.crc32]
  rw [hmetaBytes, hstored, if_neg (by simp)]
  rw [hpb, hmeta, decbuf_uvarint_metaSec]
  dsimp only
  rw [writeBlocksGo_length]
  have H := parseBlocksLoop_serialized bs hdr
    (metaSec (writeBlocksGo hdr.length bs).2 ++
      (putBE32 (crc32c (metaSec (writeBlocksGo hdr.length bs).2)) ++
        putBE64 (hdr.length + (writeBlocksGo hdr.length bs).1.length))) [] [] 0
  simp only [List.append_nil] at H
  rw [H]
  simp

theorem newByteChunk_bytes (codec : Codec) (c : MemChunk)
    (hfmt : c.format = 2) (henc : c.encoding < 256)
    (hfit : (c.bytes codec).1.length < 2 ^ 64) (bsz tsz : Int) :
    NewByteChunk (c.bytes codec).1 bsz tsz =
      .ok { blockSize := bsz, targetSize := tsz,
            blocks := ((c.bytes codec).2).blocks.map
              (fun b => { b with uncompressedSize := 0 }),
            cutBlockSize := ((c.cut codec).blocks.map (fun b => b.b.length)).sum,
            head := ⟨[], 0, 0, 0⟩, format := 2, encoding := c.encoding } := by
  have hfmt1 : (c.cut codec).format = 2 := (cut_format codec c).trans hfmt
  have henc1 : (c.cut codec).encoding = c.encoding := cut_encoding codec c
  have hassoc : (c.bytes codec).1 = chunkHeader (c.cut codec) ++
      ((writeBlocksGo (chunkHeader (c.cut codec)).length (c.cut codec).blocks).1 ++
        (metaSec (writeBlocksGo (chunkHeader (c.cut codec)).length (c.cut codec).blocks).2 ++
          (putBE32 (crc32c (metaSec
            (writeBlocksGo (chunkHeader (c.cut codec)).length (c.cut codec).blocks).2)) ++
            putBE64 ((chunkHeader (c.cut codec)).length +
              (writeBlocksGo (chunkHeader (c.cut codec)).length
                (c.cut codec).blocks).1.length)))) := by
    rw [bytes_fst_eq codec c]
    simp [List.append_assoc]
  have hfit2 : (chunkHeader (c.cut codec)).length +
      (writeBlocksGo (chunkHeader (c.cut codec)).length (c.cut codec).blocks).1.length
      < 2 ^ 64 := by
    rw [hassoc] at hfit
    simp only [List.length_append] at hfit
    omega
  rw [hassoc, bytes_snd_eq codec c, blocks_update]
  exact newByteChunk_serialized 2 c.encoding bsz tsz (chunkHeader (c.cut codec))
    (writeBlocksGo (chunkHeader (c.cut codec)).length (c.cut codec).blocks).1
    (metaSec (writeBlocksGo (chunkHeader (c.cut codec)).length (c.cut codec).blocks).2)
    (c.cut codec).blocks
    (fun r => (parseHeader_chunkHeader (c.cut codec) r hfmt1
      (by rw [henc1]; exact henc)).trans (by rw [henc1]))
    rfl rfl hfit2

theorem map_t_chain (es : List entry)
    (hsorted : List.Chain' (fun a b => a.t ≤ b.t) es) :
    List.Chain' (· ≤ ·) (((es.map entry.t).headD 0) :: es.map entry.t) := by
  cases hes : es.map entry.t with
  | nil => simp
  | cons a l =>
    rw [List.headD_cons]
    refine List.chain'_cons.2 ⟨le_refl a, ?_⟩
    rw [← hes]
    exact (List.chain'_map entry.t).mpr hsorted

/-- Claim C1: building a chunk by appending an in-order entry sequence
(lines below the decodable cap) succeeds, and serializing with
`Bytes()` then parsing with `NewByteChunk` yields a chunk whose
iteration returns exactly the same entries, in order, with the same
timestamps and line contents — for every codec whose reader inverts
its writer (each supported `Encoding`'s pool pair). -/
theorem roundtrip (codec : Codec) (hinv : ∀ l, codec.decomp (codec.comp l) = l)
    (enc : Nat) (henc : enc < 256) (bsz tsz bsz2 tsz2 : Int) (es : List entry)
    (hsorted : List.Chain' (fun a b => a.t ≤ b.t) es)
    (hlines : ∀ e ∈ es, e.s.length < maxLineLength)
    (hfit : ((appendAll codec (NewMemChunk enc bsz tsz) es).bytes codec).1.length < 2 ^ 64) :
    appendAllOk codec (NewMemChunk enc bsz tsz) es = true ∧
    ∃ c', NewByteChunk ((appendAll codec (NewMemChunk enc bsz tsz) es).bytes codec).1
            bsz2 tsz2 = .ok c'
      ∧ c'.decodedEntries codec = some es ∧ c'.encoding = enc := by
  have hS0 : Shapes codec (NewMemChunk enc bsz tsz) [] [] := ⟨rfl, rfl⟩
  have hR0 : Ready (NewMemChunk enc bsz tsz) ((es.map entry.t).headD 0) := by
    constructor
    · intro habs
      simp [NewMemChunk, headBlock.isEmpty] at habs
    · intro _
      exact Or.inl rfl
  obtain ⟨hok, bss, hS⟩ := appendAll_build codec es (NewMemChunk enc bsz tsz) [] []
    ((es.map entry.t).headD 0) hS0 hR0 (map_t_chain es hsorted)
  rw [List.nil_append] at hS
  refine ⟨hok, ?_⟩
  have hfmt : (appendAll codec (NewMemChunk enc bsz tsz) es).format = 2 :=
    (appendAll_meta codec es _).1
  have hencfin : (appendAll codec (NewMemChunk enc bsz tsz) es).encoding = enc :=
    (appendAll_meta codec es _).2
  obtain ⟨bss', hS', hcutnil⟩ :=
    Shapes_cut codec (appendAll codec (NewMemChunk enc bsz tsz) es) bss es hS
  have hparse := newByteChunk_bytes codec (appendAll codec (NewMemChunk enc bsz tsz) es)
    hfmt (by rw [hencfin]; exact henc) hfit bsz2 tsz2
  have hflat : bss'.flatten = es := by
    have h := hS'.2
    rw [hcutnil, List.append_nil] at h
    exact h
  have hmap : (((appendAll codec (NewMemChunk enc bsz tsz) es).bytes codec).2.blocks.map
        (fun b => { b with uncompressedSize := 0 })).map block.b
      = bss'.map (fun l => codec.comp (encodeEntries l)) := by
    have h1 : (((appendAll codec (NewMemChunk enc bsz tsz) es).bytes codec).2.blocks.map
        (fun b => { b with uncompressedSize := 0 })).map block.b
        = ((appendAll codec (NewMemChunk enc bsz tsz) es).bytes codec).2.blocks.map block.b := by
      simp
    rw [h1, bytes_snd_eq codec _, blocks_update, writeBlocksGo_map_b]
    exact hS'.1
  have hlines' : ∀ l ∈ bss', ∀ e ∈ l, e.s.length < maxLineLength := by
    intro l hl e he
    exact hlines e (by rw [← hflat]; exact List.mem_flatten.mpr ⟨l, hl, he⟩)
  have hdec := decodedEntries_of_shapes codec hinv
    { blockSize := bsz2, targetSize := tsz2,
      blocks := (((appendAll codec (NewMemChunk enc bsz tsz) es).bytes codec).2).blocks.map
        (fun b => { b with uncompressedSize := 0 }),
      cutBlockSize := (((appendAll codec (NewMemChunk enc bsz tsz) es).cut codec).blocks.map
        (fun b => b.b.length)).sum,
      head := ⟨[], 0, 0, 0⟩, format := 2,
      encoding := (appendAll codec (NewMemChunk enc bsz tsz) es).encoding } bss' hmap hlines'
  exact ⟨_, hparse, by simpa [hflat] using hdec, hencfin⟩

set_option maxRecDepth 10000 in
/-- Witness for claim C1 at the two-entry sequence, identity codec
(`EncNone`) and a 1-byte block size forcing a cut per append. -/
theorem roundtrip_witness :
    appendAllOk codec0 (NewMemChunk 0 1 0) esW = true ∧
    ∃ c', NewByteChunk ((appendAll codec0 (NewMemChunk 0 1 0) esW).bytes codec0).1 1 0 = .ok c'
      ∧ c'.decodedEntries codec0 = some esW ∧ c'.encoding = 0 :=
  roundtrip codec0 (fun _ => rfl) 0 (by decide) 1 0 1 0 esW
    (by rw [esW]; exact List.chain'_cons.mpr ⟨by norm_num, List.chain'_singleton _⟩)
    (by decide) (by decide)

end LokiChunk
